import Mathlib

/-!
# Verification of the gemini-ocr alignment and annotation engine

Shallow embedding of the core of the `folded/gemini-ocr` repository:

* `src/gemini_ocr/gemini_ocr.py` — `OcrResult.annotate`, the coverage
  computation inside `process_document`, and the page-marker rebasing in
  `_generate_markdown_for_chunk`;
* `src/gemini_ocr/settings.py` — the `Settings` dataclass with its
  `__post_init__`/`_load_from_env`/`_validate` flow;
* the Alignment Engine (`bbox_alignment.create_annotated_markdown`), whose
  module is not part of the sources; where needed it is modelled from the
  specification (each such definition is marked `Modelled from the spec:`).

Python `float` arithmetic is modelled with `ℚ` (the quantities involved are
ratios of machine-size integers, where IEEE division is exact in the
properties considered); Python `str` with Lean `String`/`List Char`;
Python `dict` (insertion-ordered, unique keys) with an association list.
-/

namespace GeminiOcr

/-- Embeds `document.BBox`: a named tuple of four integers
`top, left, bottom, right`. -/
structure BBox where
  top : Int
  left : Int
  bottom : Int
  right : Int
deriving DecidableEq, Repr

/-- Embeds `document.BoundingBox`: a text segment with its bounding box and
page number. -/
structure BoundingBox where
  text : String
  page : Int
  rect : BBox
deriving DecidableEq, Repr

/-- An element of the working list built by `OcrResult.annotate`: the Python
code builds `chars = list(self.markdown_content)` (character elements) and
then inserts whole tag strings as single list elements.  A tag element
remembers whether it is the closing `</span>` tag (`isEnd = true`), its
owning bounding box and the span it was generated from; `renderElem` below
maps it to the exact string the Python code inserts. -/
inductive Elem where
  | ch (c : Char)
  | tag (isEnd : Bool) (owner : BoundingBox) (span : Int × Int)
deriving DecidableEq, Repr

/-- Embeds `OcrResult` (gemini_ocr.py).  `bounding_boxes` is the Python dict
`dict[BoundingBox, tuple[int, int]]` as an insertion-ordered association
list. -/
structure OcrResult where
  markdown_content : String
  bounding_boxes : List (BoundingBox × (Int × Int))
  coverage_percent : ℚ
deriving DecidableEq, Repr

/-- The `f"{bbox.rect.top},{bbox.rect.left},{bbox.rect.bottom},{bbox.rect.right}"`
string of `annotate`. -/
def bboxStr (b : BBox) : String :=
  toString b.top ++ "," ++ toString b.left ++ "," ++ toString b.bottom ++ ","
    ++ toString b.right

/-- The `start_tag` f-string of `annotate`. -/
def startTag (b : BoundingBox) : String :=
  "<span class=\"ocr_bbox\" data-bbox=\"" ++ bboxStr b.rect
    ++ "\" data-page=\"" ++ toString b.page ++ "\">"

/-- The `end_tag` of `annotate`. -/
def endTag : String := "</span>"

/-- Maps a working-list element to the string it denotes in the Python list. -/
def renderElem : Elem → String
  | .ch c => String.mk [c]
  | .tag false b _ => startTag b
  | .tag true _ _ => endTag

/-- An entry of the `insertions` list of `annotate`:
`(index, is_end, length, text_to_insert)`. -/
structure Ins where
  index : Int
  isEnd : Bool
  length : Int
  elem : Elem
deriving DecidableEq, Repr

/-- The two `insertions.append(...)` calls for one dict item
`bbox, (start, end)`:
`(start, False, length, start_tag)` and `(end, True, length, end_tag)`. -/
def insertionPair (p : BoundingBox × (Int × Int)) : List Ins :=
  [⟨p.2.1, false, p.2.2 - p.2.1, .tag false p.1 p.2⟩,
   ⟨p.2.2, true, p.2.2 - p.2.1, .tag true p.1 p.2⟩]

/-- The full `insertions` list built by the `for bbox, (start, end) in
self.bounding_boxes.items()` loop. -/
def insertionsOf (r : OcrResult) : List Ins :=
  (r.bounding_boxes.map insertionPair).flatten

/-- The order used by `insertions.sort(key=lambda x: (x[0], x[1], -x[2]),
reverse=True)`: descending lexicographically in `(index, is_end, -length)`,
that is, index descending, then end tags before start tags, then length
ascending.  `insBefore a b` states that `a` may come no later than `b`. -/
def insBefore (a b : Ins) : Prop :=
  b.index < a.index ∨
    (a.index = b.index ∧
      ((a.isEnd = true ∧ b.isEnd = false) ∨
        (a.isEnd = b.isEnd ∧ a.length ≤ b.length)))

instance : DecidableRel insBefore := fun a b => by
  unfold insBefore; infer_instance

instance : IsTotal Ins insBefore := by
  constructor
  intro a b
  unfold insBefore
  rcases lt_trichotomy a.index b.index with h | h | h
  · exact Or.inr (Or.inl h)
  · cases ha : a.isEnd <;> cases hb : b.isEnd
    · rcases le_total a.length b.length with hl | hl
      · exact Or.inl (Or.inr ⟨h, Or.inr ⟨rfl, hl⟩⟩)
      · exact Or.inr (Or.inr ⟨h.symm, Or.inr ⟨rfl, hl⟩⟩)
    · exact Or.inr (Or.inr ⟨h.symm, Or.inl ⟨rfl, rfl⟩⟩)
    · exact Or.inl (Or.inr ⟨h, Or.inl ⟨rfl, rfl⟩⟩)
    · rcases le_total a.length b.length with hl | hl
      · exact Or.inl (Or.inr ⟨h, Or.inr ⟨rfl, hl⟩⟩)
      · exact Or.inr (Or.inr ⟨h.symm, Or.inr ⟨rfl, hl⟩⟩)
  · exact Or.inl (Or.inl h)

instance : IsTrans Ins insBefore := by
  constructor
  intro a b c hab hbc
  unfold insBefore at *
  rcases hab with h | ⟨he, hab⟩
  · rcases hbc with h' | ⟨he', _⟩
    · exact Or.inl (h'.trans h)
    · exact Or.inl (he' ▸ h)
  · rcases hbc with h' | ⟨he', hbc⟩
    · exact Or.inl (he ▸ h')
    · refine Or.inr ⟨he.trans he', ?_⟩
      rcases hab with ⟨ha, hb⟩ | ⟨hk, hl⟩
      · rcases hbc with ⟨hb', _⟩ | ⟨hk', _⟩
        · rw [hb] at hb'; cases hb'
        · exact Or.inl ⟨ha, hk' ▸ hb⟩
      · rcases hbc with ⟨hb', hc⟩ | ⟨hk', hl'⟩
        · exact Or.inl ⟨hk ▸ hb', hc⟩
        · exact Or.inr ⟨hk.trans hk', hl.trans hl'⟩

/-- The sorted `insertions` list.  Python's `list.sort` is a stable sort and
with `reverse=True` keeps equal-key elements in their original order;
`List.insertionSort` with the reflexive total preorder `insBefore` has the
same behaviour. -/
def sortedInsertions (r : OcrResult) : List Ins :=
  List.insertionSort insBefore (insertionsOf r)

/-- Embeds Python `list.insert(i, x)` (CPython `ins1`): a negative index is
first shifted by the list length and then clamped below at `0`; an index
beyond the length is clamped to the length.  The insertion itself never
fails. -/
def pyInsert (l : List Elem) (i : Int) (e : Elem) : List Elem :=
  let idx : Nat := if i < 0 then ((l.length : Int) + i).toNat else min i.toNat l.length
  l.take idx ++ e :: l.drop idx

/-- The `chars = list(self.markdown_content)` initial working list. -/
def initialElems (r : OcrResult) : List Elem :=
  r.markdown_content.data.map Elem.ch

/-- The working list after the `for index, _, _, text in insertions:
chars.insert(index, text)` loop of `annotate`. -/
def annotatedElems (r : OcrResult) : List Elem :=
  (sortedInsertions r).foldl (fun cs i => pyInsert cs i.index i.elem)
    (initialElems r)

/-- Embeds `OcrResult.annotate`: the final `"".join(chars)`. -/
def annotate (r : OcrResult) : String :=
  String.join ((annotatedElems r).map renderElem)

/-- Projection keeping only original character elements. -/
def chOf : Elem → Option Char
  | .ch c => some c
  | .tag _ _ _ => none

/-- The original markdown recovered by deleting every inserted marker element
from the working list and joining the remaining characters. -/
def eraseMarkers (l : List Elem) : String :=
  String.mk (l.filterMap chOf)

lemma filterMap_chOf_pyInsert (l : List Elem) (i : Int) (e : Elem)
    (he : chOf e = none) :
    (pyInsert l i e).filterMap chOf = l.filterMap chOf := by
  unfold pyInsert
  simp only [List.filterMap_append, List.filterMap_cons, he]
  rw [← List.filterMap_append, List.take_append_drop]

lemma length_pyInsert (l : List Elem) (i : Int) (e : Elem) :
    (pyInsert l i e).length = l.length + 1 := by
  unfold pyInsert
  simp only [List.length_append, List.length_cons, List.length_take,
    List.length_drop]
  omega

lemma mem_insertionsOf {r : OcrResult} {i : Ins} (hi : i ∈ insertionsOf r) :
    ∃ p ∈ r.bounding_boxes,
      i = ⟨p.2.1, false, p.2.2 - p.2.1, .tag false p.1 p.2⟩ ∨
      i = ⟨p.2.2, true, p.2.2 - p.2.1, .tag true p.1 p.2⟩ := by
  simp only [insertionsOf, List.mem_flatten, List.mem_map] at hi
  obtain ⟨_, ⟨p, hp, rfl⟩, hmem⟩ := hi
  refine ⟨p, hp, ?_⟩
  simpa [insertionPair] using hmem

lemma mem_sortedInsertions {r : OcrResult} {i : Ins}
    (hi : i ∈ sortedInsertions r) : i ∈ insertionsOf r :=
  (List.perm_insertionSort insBefore (insertionsOf r)).mem_iff.mp hi

lemma chOf_elem_of_mem {r : OcrResult} {i : Ins} (hi : i ∈ insertionsOf r) :
    chOf i.elem = none := by
  obtain ⟨p, _, h | h⟩ := mem_insertionsOf hi <;> subst h <;> rfl

/-- Applying any list of marker insertions leaves the character subsequence
of the working list untouched. -/
lemma filterMap_chOf_foldl (ins : List Ins) :
    ∀ l : List Elem, (∀ i ∈ ins, chOf i.elem = none) →
      (ins.foldl (fun cs i => pyInsert cs i.index i.elem) l).filterMap chOf
        = l.filterMap chOf := by
  induction ins with
  | nil => intro l _; rfl
  | cons i t ih =>
    intro l h
    rw [List.foldl_cons, ih _ fun j hj => h j (List.mem_cons_of_mem _ hj),
      filterMap_chOf_pyInsert _ _ _ (h i (List.mem_cons_self i t))]

/-- Erasing every inserted marker from the working list of `annotate`
recovers the original markdown, for arbitrary (even invalid) spans. -/
lemma eraseMarkers_annotatedElems (r : OcrResult) :
    eraseMarkers (annotatedElems r) = r.markdown_content := by
  unfold eraseMarkers annotatedElems
  rw [filterMap_chOf_foldl _ _
    (fun i hi => chOf_elem_of_mem (mem_sortedInsertions hi))]
  unfold initialElems
  congr 1
  induction r.markdown_content.data with
  | nil => rfl
  | cons c t ih => simpa [chOf] using ih

lemma length_annotatedElems (r : OcrResult) :
    (annotatedElems r).length
      = r.markdown_content.length + 2 * r.bounding_boxes.length := by
  unfold annotatedElems
  have key : ∀ (ins : List Ins) (l : List Elem),
      (ins.foldl (fun cs i => pyInsert cs i.index i.elem) l).length
        = l.length + ins.length := by
    intro ins
    induction ins with
    | nil => intro l; rfl
    | cons i t ih =>
      intro l
      rw [List.foldl_cons, ih, length_pyInsert, List.length_cons]
      omega
  rw [key]
  have hsort : (sortedInsertions r).length = (insertionsOf r).length :=
    (List.perm_insertionSort insBefore (insertionsOf r)).length_eq
  have hlen : (insertionsOf r).length = 2 * r.bounding_boxes.length := by
    unfold insertionsOf
    induction r.bounding_boxes with
    | nil => rfl
    | cons p t ih =>
      simp only [List.map_cons, List.flatten_cons, List.length_append, ih,
        insertionPair, List.length_cons, List.length_nil]
      omega
  rw [hsort, hlen]
  unfold initialElems
  rw [List.length_map]
  rfl

/-! ### Block decomposition of the insertion loop

Because the `insertions` list is processed in descending index order, every
`chars.insert(index, text)` call lands immediately before the block of tags
already inserted at the same text position.  The final working list is
therefore the original characters interleaved with per-position marker
blocks; `weave` expresses that shape and the lemmas below prove the
characterisation. -/

/-- The term `weave g k cs` is the working list viewed as the characters of `cs`
(text positions `k`, `k+1`, …) each preceded by the marker block `g q` of
its position `q`, with the final block `g (k + cs.length)` at the end. -/
def weave (g : Nat → List Elem) : Nat → List Char → List Elem
  | k, [] => g k
  | k, c :: cs => g k ++ Elem.ch c :: weave g (k + 1) cs

/-- Prepend an element to the block at position `p`. -/
def bump (g : Nat → List Elem) (p : Nat) (e : Elem) : Nat → List Elem :=
  fun q => if q = p then e :: g q else g q

/-- Plain list insertion at an in-range position. -/
def insertAt (l : List Elem) (p : Nat) (e : Elem) : List Elem :=
  l.take p ++ e :: l.drop p

lemma weave_empty_blocks (cs : List Char) :
    ∀ k, weave (fun _ => []) k cs = cs.map Elem.ch := by
  induction cs with
  | nil => intro k; rfl
  | cons c t ih => intro k; simp [weave, ih]

lemma weave_congr {g₁ g₂ : Nat → List Elem} (cs : List Char) :
    ∀ k, (∀ q, k ≤ q → g₁ q = g₂ q) → weave g₁ k cs = weave g₂ k cs := by
  induction cs with
  | nil => intro k h; exact h k le_rfl
  | cons c t ih =>
    intro k h
    simp only [weave]
    rw [h k le_rfl, ih (k + 1) fun q hq => h q (by omega)]

lemma length_weave_ge (g : Nat → List Elem) (cs : List Char) :
    ∀ k, cs.length ≤ (weave g k cs).length := by
  induction cs with
  | nil => intro k; simp [weave]
  | cons c t ih =>
    intro k
    simp only [weave, List.length_append, List.length_cons]
    have := ih (k + 1)
    omega

lemma pyInsert_eq_insertAt (l : List Elem) (i : Int) (e : Elem)
    (h0 : 0 ≤ i) (hl : i ≤ (l.length : Int)) :
    pyInsert l i e = insertAt l i.toNat e := by
  unfold pyInsert insertAt
  have : ¬ i < 0 := not_lt.mpr h0
  simp only [this, if_false]
  have : min i.toNat l.length = i.toNat := by omega
  rw [this]

lemma insertAt_zero (l : List Elem) (e : Elem) : insertAt l 0 e = e :: l := rfl

lemma insertAt_cons_succ (c : Elem) (l : List Elem) (p : Nat) (e : Elem) :
    insertAt (c :: l) (p + 1) e = c :: insertAt l p e := by
  simp [insertAt]

lemma insertAt_append_left (l₁ l₂ : List Elem) (e : Elem) :
    insertAt (l₁ ++ l₂) l₁.length e = l₁ ++ e :: l₂ := by
  simp [insertAt, List.take_append_eq_append_take, List.drop_append_eq_append_drop]

/-- Inserting at element index `p` into a weave whose blocks below position
`k + p` are empty prepends the element to the block at position `k + p`. -/
lemma insertAt_weave (cs : List Char) :
    ∀ (k p : Nat) (g : Nat → List Elem) (e : Elem), p ≤ cs.length →
      (∀ q, k ≤ q → q < k + p → g q = []) →
      insertAt (weave g k cs) p e = weave (bump g (k + p) e) k cs := by
  induction cs with
  | nil =>
    intro k p g e hp hblk
    have hp0 : p = 0 := by simpa using hp
    subst hp0
    simp [weave, insertAt_zero, bump]
  | cons c t ih =>
    intro k p g e hp hblk
    cases p with
    | zero =>
      have htail : weave (bump g k e) (k + 1) t = weave g (k + 1) t :=
        weave_congr t (k + 1) fun q hq => by
          unfold bump; rw [if_neg (by omega)]
      simp [insertAt_zero, weave, htail, bump]
    | succ n =>
      have hgk : g k = [] := hblk k le_rfl (by omega)
      have hp' : n ≤ t.length := by
        simp only [List.length_cons] at hp; omega
      simp only [weave, hgk, List.nil_append]
      rw [insertAt_cons_succ]
      rw [ih (k + 1) n g e hp' (fun q hq hq' => hblk q (by omega) (by omega))]
      have hne : k ≠ k + (n + 1) := by omega
      have hgk' : bump g (k + (n + 1)) e k = [] := by
        unfold bump; rw [if_neg hne]; exact hgk
      have harith : k + 1 + n = k + (n + 1) := by omega
      rw [harith]
      simp only [weave, hgk', List.nil_append]

/-- One step of the insertion loop. -/
def applyIns (cs : List Elem) (i : Ins) : List Elem :=
  pyInsert cs i.index i.elem

/-- The cumulative effect of a list of insertions on the blocks. -/
def addAll (ins : List Ins) (g : Nat → List Elem) : Nat → List Elem :=
  ins.foldl (fun g i => bump g i.index.toNat i.elem) g

lemma addAll_apply (ins : List Ins) :
    ∀ (g : Nat → List Elem) (q : Nat), (∀ i ∈ ins, 0 ≤ i.index) →
      addAll ins g q
        = ((ins.filter (fun i => i.index = (q : Int))).map Ins.elem).reverse ++ g q := by
  induction ins with
  | nil => intro g q _; simp [addAll]
  | cons i t ih =>
    intro g q hpos
    have hstep : addAll (i :: t) g = addAll t (bump g i.index.toNat i.elem) := rfl
    rw [hstep, ih _ q (fun j hj => hpos j (List.mem_cons_of_mem _ hj))]
    by_cases hq : i.index = (q : Int)
    · have hti : i.index.toNat = q := by omega
      simp [List.filter_cons, hq, bump, hti]
    · have hti : i.index.toNat ≠ q := by
        have := hpos i (List.mem_cons_self i t)
        omega
      have h2 : q ≠ i.index.toNat := fun h => hti h.symm
      simp [List.filter_cons, hq, bump, h2]

/-- Applying a descending-index insertion list to a weave with empty blocks
below every insertion index accumulates each inserted element at the front
of its position's block. -/
lemma foldl_applyIns_weave (ins : List Ins) :
    ∀ (g : Nat → List Elem) (cs : List Char),
      List.Pairwise (fun a b : Ins => b.index ≤ a.index) ins →
      (∀ i ∈ ins, 0 ≤ i.index ∧ i.index ≤ (cs.length : Int)) →
      (∀ i ∈ ins, ∀ q : Nat, (q : Int) < i.index → g q = []) →
      ins.foldl applyIns (weave g 0 cs) = weave (addAll ins g) 0 cs := by
  induction ins with
  | nil => intro g cs _ _ _; rfl
  | cons i t ih =>
    intro g cs hpair hrange hblk
    have hi := hrange i (List.mem_cons_self i t)
    have hwlen : i.index ≤ ((weave g 0 cs).length : Int) := by
      have := length_weave_ge g cs 0
      have := hi.2
      omega
    rw [List.foldl_cons]
    have h1 : applyIns (weave g 0 cs) i
        = weave (bump g i.index.toNat i.elem) 0 cs := by
      unfold applyIns
      rw [pyInsert_eq_insertAt _ _ _ hi.1 hwlen]
      have := insertAt_weave cs 0 i.index.toNat g i.elem
        (by have := hi.2; omega)
        (fun q hq hq' => hblk i (List.mem_cons_self i t) q (by omega))
      simpa using this
    rw [h1]
    rw [ih (bump g i.index.toNat i.elem) cs hpair.of_cons
      (fun j hj => hrange j (List.mem_cons_of_mem _ hj))
      ?_]
    · rfl
    · intro j hj q hq
      have hji : j.index ≤ i.index := List.rel_of_pairwise_cons hpair hj
      have hqi : (q : Int) < i.index := lt_of_lt_of_le hq hji
      have hne : q ≠ i.index.toNat := by omega
      simp only [bump, if_neg hne]
      exact hblk j (List.mem_cons_of_mem _ hj) q hq

/-- The marker block inserted at text position `q`, in final string order:
the reverse of the processing order of the insertions with index `q`. -/
def blockAt (ins : List Ins) (q : Nat) : List Elem :=
  ((ins.filter (fun i => i.index = (q : Int))).map Ins.elem).reverse

/-- Validity of all spans of the alignment map against the markdown. -/
def ValidSpans (r : OcrResult) : Prop :=
  ∀ p ∈ r.bounding_boxes,
    0 ≤ p.2.1 ∧ p.2.1 ≤ p.2.2 ∧ p.2.2 ≤ (r.markdown_content.length : Int)

lemma index_bounds_of_valid {r : OcrResult} (hv : ValidSpans r) :
    ∀ i ∈ insertionsOf r,
      0 ≤ i.index ∧ i.index ≤ (r.markdown_content.length : Int) := by
  intro i hi
  obtain ⟨p, hp, h | h⟩ := mem_insertionsOf hi <;> subst h <;>
    simp only [] <;> have := hv p hp <;> constructor <;> omega

/-- The working list of `annotate`, characterised as interleaved blocks:
for valid spans it equals the original characters with, before each
position, the block of markers inserted there. -/
lemma annotatedElems_eq_weave (r : OcrResult) (hv : ValidSpans r) :
    annotatedElems r
      = weave (blockAt (sortedInsertions r)) 0 r.markdown_content.data := by
  have hperm := List.perm_insertionSort insBefore (insertionsOf r)
  have hrange : ∀ i ∈ sortedInsertions r,
      0 ≤ i.index ∧ i.index ≤ ((r.markdown_content.data.length : Int)) := by
    intro i hi
    exact index_bounds_of_valid hv i (mem_sortedInsertions hi)
  have hpair : List.Pairwise (fun a b : Ins => b.index ≤ a.index)
      (sortedInsertions r) := by
    have hs := List.sorted_insertionSort insBefore (insertionsOf r)
    exact hs.imp (fun {a b} hab => by
      rcases hab with h | ⟨h, _⟩
      · exact le_of_lt h
      · exact le_of_eq h.symm)
  have h0 : initialElems r = weave (fun _ => []) 0 r.markdown_content.data := by
    rw [weave_empty_blocks]; rfl
  unfold annotatedElems
  rw [h0]
  have := foldl_applyIns_weave (sortedInsertions r) (fun _ => [])
    r.markdown_content.data hpair hrange (fun _ _ _ _ => rfl)
  rw [show (fun (cs : List Elem) (i : Ins) => pyInsert cs i.index i.elem) = applyIns from rfl]
  rw [this]
  apply weave_congr
  intro q _
  rw [addAll_apply _ _ _ (fun i hi => (hrange i hi).1)]
  simp [blockAt]

/-! ### Well-nested markup

`scanStep` runs the usual bracket-matching stack over the working list:
an opening marker pushes its span, a closing marker must find its own span
on top of the stack.  `WellNested` states that every opening marker is
closed by the closing marker inserted for the same span, with no crossing
pairs. -/

/-- Bracket-matching step over working-list elements.  The stack records the
spans of currently open markers. -/
def scanStep : Option (List (Int × Int)) → Elem → Option (List (Int × Int))
  | none, _ => none
  | some st, .ch _ => some st
  | some st, .tag false _ sp => some (sp :: st)
  | some st, .tag true _ sp =>
      match st with
      | [] => none
      | top :: rest => if sp = top then some rest else none

/-- The inserted markers of `l` form well-formed nested markup: bracket
matching succeeds and pairs every opening marker with the closing marker of
the same span. -/
def WellNested (l : List Elem) : Prop :=
  l.foldl scanStep (some []) = some []

instance (l : List Elem) : Decidable (WellNested l) := by
  unfold WellNested; infer_instance

/-- Two spans do not cross: they are disjoint or one contains the other. -/
def NonCrossing (x y : Int × Int) : Prop :=
  x.2 ≤ y.1 ∨ y.2 ≤ x.1 ∨ (x.1 ≤ y.1 ∧ y.2 ≤ x.2) ∨ (y.1 ≤ x.1 ∧ x.2 ≤ y.2)

/-- Separated endpoints: the two spans share no end position, and neither
span's end coincides with the other's start. -/
def SepEnds (x y : Int × Int) : Prop :=
  x.2 ≠ y.2 ∧ x.2 ≠ y.1 ∧ x.1 ≠ y.2

/-- Strict containment of spans. -/
def Inside (x y : Int × Int) : Prop :=
  y.1 ≤ x.1 ∧ x.2 ≤ y.2 ∧ x ≠ y

instance : DecidableRel NonCrossing := fun a b => by
  unfold NonCrossing; infer_instance

instance : DecidableRel SepEnds := fun a b => by
  unfold SepEnds; infer_instance

lemma nonCrossing_symm : Symmetric NonCrossing := by
  intro x y h
  unfold NonCrossing at *
  tauto

lemma sepEnds_symm : Symmetric SepEnds := by
  intro x y h
  unfold SepEnds at *
  exact ⟨fun e => h.1 e.symm, fun e => h.2.2 e.symm, fun e => h.2.1 e.symm⟩

lemma pairwise_to_forall {α : Type} {R : α → α → Prop} (hs : Symmetric R)
    {l : List α} (hl : l.Pairwise R) :
    ∀ x ∈ l, ∀ y ∈ l, x ≠ y → R x y :=
  fun _ hx _ hy hxy => hl.forall hs hx hy hxy

/-- Named constructors for the two insertion-list entries of one dict item. -/
def startInsOf (p : BoundingBox × (Int × Int)) : Ins :=
  ⟨p.2.1, false, p.2.2 - p.2.1, .tag false p.1 p.2⟩

def endInsOf (p : BoundingBox × (Int × Int)) : Ins :=
  ⟨p.2.2, true, p.2.2 - p.2.1, .tag true p.1 p.2⟩

lemma insertionPair_eq (p : BoundingBox × (Int × Int)) :
    insertionPair p = [startInsOf p, endInsOf p] := rfl

/-- Recovers the dict item from a marker insertion. -/
def pairOf (i : Ins) : BoundingBox × (Int × Int) :=
  match i.elem with
  | .tag _ b sp => (b, sp)
  | .ch _ => (⟨"", 0, ⟨0, 0, 0, 0⟩⟩, (0, 0))

lemma startInsOf_inj {p p' : BoundingBox × (Int × Int)}
    (h : startInsOf p = startInsOf p') : p = p' := by
  unfold startInsOf at h
  rw [Ins.mk.injEq] at h
  obtain ⟨-, -, -, h⟩ := h
  rw [Elem.tag.injEq] at h
  exact Prod.ext h.2.1 h.2.2

lemma endInsOf_inj {p p' : BoundingBox × (Int × Int)}
    (h : endInsOf p = endInsOf p') : p = p' := by
  unfold endInsOf at h
  rw [Ins.mk.injEq] at h
  obtain ⟨-, -, -, h⟩ := h
  rw [Elem.tag.injEq] at h
  exact Prod.ext h.2.1 h.2.2

lemma startInsOf_ne_endInsOf (p p' : BoundingBox × (Int × Int)) :
    startInsOf p ≠ endInsOf p' := by
  unfold startInsOf endInsOf
  intro h
  rw [Ins.mk.injEq] at h
  exact Bool.false_ne_true h.2.1

lemma mem_insertionsOf_iff {r : OcrResult} {i : Ins} :
    i ∈ insertionsOf r ↔
      ∃ p ∈ r.bounding_boxes, i = startInsOf p ∨ i = endInsOf p := by
  constructor
  · intro hi
    obtain ⟨p, hp, h⟩ := mem_insertionsOf hi
    exact ⟨p, hp, h⟩
  · rintro ⟨p, hp, h⟩
    simp only [insertionsOf, List.mem_flatten, List.mem_map]
    exact ⟨insertionPair p, ⟨p, hp, rfl⟩, by
      rcases h with rfl | rfl <;> simp [insertionPair_eq]⟩

lemma insertionList_nodup :
    ∀ l : List (BoundingBox × (Int × Int)), (l.map Prod.snd).Nodup →
      ((l.map insertionPair).flatten).Nodup := by
  intro l
  induction l with
  | nil => intro _; simp
  | cons p t ih =>
    intro hnd
    simp only [List.map_cons, List.flatten_cons]
    simp only [List.map_cons, List.nodup_cons] at hnd
    rw [List.nodup_append]
    refine ⟨?_, ih hnd.2, ?_⟩
    · simp [insertionPair_eq, startInsOf, endInsOf]
    · intro a ha hb
      have hb' : ∃ p' ∈ t, a = startInsOf p' ∨ a = endInsOf p' := by
        simp only [List.mem_flatten, List.mem_map] at hb
        obtain ⟨_, ⟨p', hp', rfl⟩, hmem⟩ := hb
        rw [insertionPair_eq] at hmem
        rcases List.mem_cons.mp hmem with rfl | hmem
        · exact ⟨p', hp', Or.inl rfl⟩
        · rcases List.mem_cons.mp hmem with rfl | hmem
          · exact ⟨p', hp', Or.inr rfl⟩
          · cases hmem
      obtain ⟨p', hp', h'⟩ := hb'
      rw [insertionPair_eq] at ha
      have hpp : p = p' := by
        rcases List.mem_cons.mp ha with rfl | ha
        · rcases h' with h' | h'
          · exact startInsOf_inj h'
          · exact absurd h' (startInsOf_ne_endInsOf p p')
        · rcases List.mem_cons.mp ha with rfl | ha
          · rcases h' with h' | h'
            · exact absurd h'.symm (startInsOf_ne_endInsOf p' p)
            · exact endInsOf_inj h'
          · cases ha
      exact hnd.1 (hpp ▸ List.mem_map_of_mem Prod.snd hp')

lemma insertionsOf_nodup {r : OcrResult}
    (hnd : (r.bounding_boxes.map Prod.snd).Nodup) :
    (insertionsOf r).Nodup :=
  insertionList_nodup r.bounding_boxes hnd

lemma sortedInsertions_pairwise (r : OcrResult) :
    (sortedInsertions r).Pairwise insBefore :=
  List.sorted_insertionSort insBefore (insertionsOf r)

lemma sortedInsertions_nodup {r : OcrResult}
    (hnd : (r.bounding_boxes.map Prod.snd).Nodup) :
    (sortedInsertions r).Nodup :=
  (List.perm_insertionSort insBefore (insertionsOf r)).nodup_iff.mpr
    (insertionsOf_nodup hnd)

lemma dropWhile_head_false {p : Ins → Bool} :
    ∀ {l : List Ins} {c : Ins} {t : List Ins},
      l.dropWhile p = c :: t → p c = false := by
  intro l
  induction l with
  | nil => intro c t h; cases h
  | cons a l ih =>
    intro c t h
    rw [List.dropWhile_cons] at h
    by_cases hp : p a = true
    · rw [if_pos hp] at h; exact ih h
    · rw [if_neg hp] at h
      cases h
      exact Bool.eq_false_iff.mpr hp

/-- Structure of the marker block at position `q`: the opening markers of
the spans starting at `q` (longest first), followed by the closing markers
of the spans ending at `q` (longest first). -/
lemma block_shape (r : OcrResult)
    (hnd : (r.bounding_boxes.map Prod.snd).Nodup) (q : Nat) :
    ∃ os cl : List (BoundingBox × (Int × Int)),
      blockAt (sortedInsertions r) q
        = os.map (fun p => Elem.tag false p.1 p.2)
          ++ cl.map (fun p => Elem.tag true p.1 p.2) ∧
      (∀ p, p ∈ os ↔ p ∈ r.bounding_boxes ∧ p.2.1 = (q : Int)) ∧
      (∀ p, p ∈ cl ↔ p ∈ r.bounding_boxes ∧ p.2.2 = (q : Int)) ∧
      os.Pairwise (fun a b => b.2.2 ≤ a.2.2) ∧
      os.Nodup ∧ cl.Nodup := by
  classical
  set fl := (sortedInsertions r).filter (fun i => decide (i.index = (q : Int)))
    with hfl_def
  have hfl_sub : fl.Sublist (sortedInsertions r) := List.filter_sublist _
  have hfl_pair : fl.Pairwise insBefore :=
    (sortedInsertions_pairwise r).sublist hfl_sub
  have hfl_nodup : fl.Nodup := (sortedInsertions_nodup hnd).sublist hfl_sub
  have hfl_mem : ∀ i, i ∈ fl ↔ i ∈ insertionsOf r ∧ i.index = (q : Int) := by
    intro i
    rw [hfl_def, List.mem_filter]
    constructor
    · rintro ⟨h1, h2⟩
      exact ⟨mem_sortedInsertions h1, by simpa using h2⟩
    · rintro ⟨h1, h2⟩
      refine ⟨(List.perm_insertionSort insBefore (insertionsOf r)).mem_iff.mpr h1, ?_⟩
      simpa using h2
  set cl_e := fl.takeWhile (fun i => i.isEnd) with hcl_def
  set os_e := fl.dropWhile (fun i => i.isEnd) with hos_def
  have hsplit : cl_e ++ os_e = fl := by
    rw [hcl_def, hos_def]
    exact List.takeWhile_append_dropWhile _ _
  have hcl_sub : cl_e.Sublist fl := List.takeWhile_sublist _
  have hos_sub : os_e.Sublist fl := List.dropWhile_sublist _
  have hcl_end : ∀ i ∈ cl_e, i.isEnd = true := by
    intro i hi
    exact List.mem_takeWhile_imp hi
  have hos_not_end : ∀ i ∈ os_e, i.isEnd = false := by
    intro i hi
    rcases hcases : os_e with - | ⟨c, t⟩
    · rw [hcases] at hi; cases hi
    · have hc : c.isEnd = false := by
        have := dropWhile_head_false (p := fun i => i.isEnd) (hos_def ▸ hcases)
        simpa using this
      rw [hcases] at hi
      rcases List.mem_cons.mp hi with rfl | hit
      · exact hc
      · by_contra htrue
        have hitrue : i.isEnd = true := by
          revert htrue; cases i.isEnd <;> simp
        have hpair_os : os_e.Pairwise insBefore := hfl_pair.sublist hos_sub
        rw [hcases] at hpair_os
        have hci : insBefore c i := (List.pairwise_cons.mp hpair_os).1 i hit
        have hcfl : c ∈ fl := hos_sub.subset (hcases ▸ List.mem_cons_self c t)
        have hifl : i ∈ fl := hos_sub.subset (hcases ▸ List.mem_cons_of_mem c hit)
        have hcq : c.index = (q : Int) := ((hfl_mem c).mp hcfl).2
        have hiq : i.index = (q : Int) := ((hfl_mem i).mp hifl).2
        rcases hci with h | ⟨-, ⟨hce, -⟩ | ⟨hk, -⟩⟩
        · rw [hcq, hiq] at h; exact lt_irrefl _ h
        · rw [hc] at hce; cases hce
        · rw [hc, hitrue] at hk; cases hk
  have hos_start : ∀ i ∈ os_e, ∃ p ∈ r.bounding_boxes, i = startInsOf p := by
    intro i hi
    have hifl : i ∈ fl := hos_sub.subset hi
    obtain ⟨h_ins, -⟩ := (hfl_mem i).mp hifl
    obtain ⟨p, hp, h | h⟩ := mem_insertionsOf_iff.mp h_ins
    · exact ⟨p, hp, h⟩
    · exfalso
      have := hos_not_end i hi
      rw [h] at this
      cases this
  have hcl_close : ∀ i ∈ cl_e, ∃ p ∈ r.bounding_boxes, i = endInsOf p := by
    intro i hi
    have hifl : i ∈ fl := hcl_sub.subset hi
    obtain ⟨h_ins, -⟩ := (hfl_mem i).mp hifl
    obtain ⟨p, hp, h | h⟩ := mem_insertionsOf_iff.mp h_ins
    · exfalso
      have := hcl_end i hi
      rw [h] at this
      cases this
    · exact ⟨p, hp, h⟩
  refine ⟨os_e.reverse.map pairOf, cl_e.reverse.map pairOf, ?_, ?_, ?_, ?_, ?_, ?_⟩
  · -- block decomposition
    have h1 : blockAt (sortedInsertions r) q = (fl.map Ins.elem).reverse := by
      rw [blockAt, hfl_def]
    rw [h1, ← hsplit, List.map_append, List.reverse_append]
    congr 1
    · rw [List.map_map, ← List.map_reverse]
      apply List.map_congr_left
      intro i hi
      obtain ⟨p, -, rfl⟩ := hos_start i (List.mem_reverse.mp hi)
      rfl
    · rw [List.map_map, ← List.map_reverse]
      apply List.map_congr_left
      intro i hi
      obtain ⟨p, -, rfl⟩ := hcl_close i (List.mem_reverse.mp hi)
      rfl
  · -- os membership
    intro p
    simp only [List.mem_map, List.mem_reverse]
    constructor
    · rintro ⟨i, hi, rfl⟩
      obtain ⟨p', hp', rfl⟩ := hos_start i hi
      have hq : (startInsOf p').index = (q : Int) :=
        ((hfl_mem _).mp (hos_sub.subset hi)).2
      exact ⟨hp', hq⟩
    · rintro ⟨hp, hq⟩
      have hins : startInsOf p ∈ insertionsOf r :=
        mem_insertionsOf_iff.mpr ⟨p, hp, Or.inl rfl⟩
      have hfl' : startInsOf p ∈ fl := (hfl_mem _).mpr ⟨hins, hq⟩
      rw [← hsplit, List.mem_append] at hfl'
      rcases hfl' with h | h
      · exfalso
        have := hcl_end _ h
        cases this
      · exact ⟨startInsOf p, h, rfl⟩
  · -- cl membership
    intro p
    simp only [List.mem_map, List.mem_reverse]
    constructor
    · rintro ⟨i, hi, rfl⟩
      obtain ⟨p', hp', rfl⟩ := hcl_close i hi
      have hq : (endInsOf p').index = (q : Int) :=
        ((hfl_mem _).mp (hcl_sub.subset hi)).2
      exact ⟨hp', hq⟩
    · rintro ⟨hp, hq⟩
      have hins : endInsOf p ∈ insertionsOf r :=
        mem_insertionsOf_iff.mpr ⟨p, hp, Or.inr rfl⟩
      have hfl' : endInsOf p ∈ fl := (hfl_mem _).mpr ⟨hins, hq⟩
      rw [← hsplit, List.mem_append] at hfl'
      rcases hfl' with h | h
      · exact ⟨endInsOf p, h, rfl⟩
      · exfalso
        have := hos_not_end _ h
        cases this
  · -- descending ends among the opens
    have hstep : os_e.Pairwise
        (fun i j => (pairOf i).2.2 ≤ (pairOf j).2.2) := by
      refine (hfl_pair.sublist hos_sub).imp_of_mem ?_
      intro a b ha hb hab
      obtain ⟨pa, -, rfl⟩ := hos_start a ha
      obtain ⟨pb, -, rfl⟩ := hos_start b hb
      have hqa : (startInsOf pa).index = (q : Int) :=
        ((hfl_mem _).mp (hos_sub.subset ha)).2
      have hqb : (startInsOf pb).index = (q : Int) :=
        ((hfl_mem _).mp (hos_sub.subset hb)).2
      rcases hab with h | ⟨-, ⟨hce, -⟩ | ⟨-, hl⟩⟩
      · rw [hqa, hqb] at h; exact absurd h (lt_irrefl _)
      · cases hce
      · have h1 : pa.2.1 = (q : Int) := hqa
        have h2 : pb.2.1 = (q : Int) := hqb
        have h3 : pa.2.2 - pa.2.1 ≤ pb.2.2 - pb.2.1 := hl
        show (pairOf (startInsOf pa)).2.2 ≤ (pairOf (startInsOf pb)).2.2
        have e1 : (pairOf (startInsOf pa)).2.2 = pa.2.2 := rfl
        have e2 : (pairOf (startInsOf pb)).2.2 = pb.2.2 := rfl
        rw [e1, e2]
        omega
    rw [List.pairwise_map, List.pairwise_reverse]
    exact hstep
  · -- os nodup
    refine List.Nodup.map_on ?_ (List.nodup_reverse.mpr (hfl_nodup.sublist hos_sub))
    intro i hi j hj hij
    obtain ⟨pi, -, rfl⟩ := hos_start i (List.mem_reverse.mp hi)
    obtain ⟨pj, -, rfl⟩ := hos_start j (List.mem_reverse.mp hj)
    have : pi = pj := hij
    rw [this]
  · -- cl nodup
    refine List.Nodup.map_on ?_ (List.nodup_reverse.mpr (hfl_nodup.sublist hcl_sub))
    intro i hi j hj hij
    obtain ⟨pi, -, rfl⟩ := hcl_close i (List.mem_reverse.mp hi)
    obtain ⟨pj, -, rfl⟩ := hcl_close j (List.mem_reverse.mp hj)
    have : pi = pj := hij
    rw [this]

/-- A span is active at position `q` when it has been opened at a block
before `q` and closes at block `q` or later. -/
def ActiveAt (S : List (Int × Int)) (q : Nat) (x : Int × Int) : Prop :=
  x ∈ S ∧ x.1 < (q : Int) ∧ (q : Int) ≤ x.2

/-- Stack invariant of the bracket scan: before the block at position `q`
the stack holds exactly the active spans, innermost first. -/
def Inv (S : List (Int × Int)) (q : Nat) (st : List (Int × Int)) : Prop :=
  (∀ x, x ∈ st ↔ ActiveAt S q x) ∧ st.Pairwise Inside

lemma scan_opens (os : List (BoundingBox × (Int × Int))) :
    ∀ st, (os.map fun p => Elem.tag false p.1 p.2).foldl scanStep (some st)
      = some ((os.map Prod.snd).reverse ++ st) := by
  induction os with
  | nil => intro st; simp
  | cons p t ih =>
    intro st
    simp only [List.map_cons, List.foldl_cons, scanStep]
    rw [ih (p.2 :: st)]
    simp

/-- Processing one marker block advances the invariant one position. -/
lemma block_transition
    (S : List (Int × Int))
    (hval : ∀ x ∈ S, 0 ≤ x.1 ∧ x.1 ≤ x.2)
    (hsepF : ∀ x ∈ S, ∀ y ∈ S, x ≠ y → SepEnds x y)
    (hcrossF : ∀ x ∈ S, ∀ y ∈ S, x ≠ y → NonCrossing x y)
    (q : Nat) (st : List (Int × Int)) (hinv : Inv S q st)
    (os cl : List (BoundingBox × (Int × Int)))
    (hosm : ∀ x, x ∈ os.map Prod.snd ↔ x ∈ S ∧ x.1 = (q : Int))
    (hclm : ∀ x, x ∈ cl.map Prod.snd ↔ x ∈ S ∧ x.2 = (q : Int))
    (hospair : os.Pairwise (fun a b => b.2.2 ≤ a.2.2))
    (hosnd : (os.map Prod.snd).Nodup)
    (hclnd : (cl.map Prod.snd).Nodup) :
    ∃ st', ((os.map fun p => Elem.tag false p.1 p.2)
        ++ cl.map fun p => Elem.tag true p.1 p.2).foldl scanStep (some st)
      = some st' ∧ Inv S (q + 1) st' := by
  obtain ⟨hmem, hpairI⟩ := hinv
  have hst_nodup : st.Nodup := hpairI.imp fun h => h.2.2
  rw [List.foldl_append, scan_opens os st]
  -- facts about the opened spans
  have hos_fact : ∀ x ∈ os.map Prod.snd, x ∈ S ∧ x.1 = (q : Int) :=
    fun x hx => (hosm x).mp hx
  have hcl_fact : ∀ x ∈ cl.map Prod.snd, x ∈ S ∧ x.2 = (q : Int) :=
    fun x hx => (hclm x).mp hx
  -- the closing block holds at most one span
  have hcl_cases : cl.map Prod.snd = [] ∨ ∃ c, cl.map Prod.snd = [c] := by
    rcases hc : cl.map Prod.snd with - | ⟨c, rest⟩
    · exact Or.inl rfl
    · right
      refine ⟨c, ?_⟩
      have hrest : rest = [] := by
        rw [List.eq_nil_iff_forall_not_mem]
        intro d hd
        have hcS := hcl_fact c (hc ▸ List.mem_cons_self c rest)
        have hdS := hcl_fact d (hc ▸ List.mem_cons_of_mem c hd)
        have hnd' := hc ▸ hclnd
        have hcd : c ≠ d := by
          intro h
          exact (List.nodup_cons.mp hnd').1 (h ▸ hd)
        exact (hsepF c hcS.1 d hdS.1 hcd).1 (hcS.2.trans hdS.2.symm)
      rw [hrest]
  rcases hcl_cases with hclnil | ⟨c, hclone⟩
  · -- no closing marker at this position
    have hclpairs : cl = [] := List.map_eq_nil.mp hclnil
    subst hclpairs
    refine ⟨(os.map Prod.snd).reverse ++ st, by simp, ?_, ?_⟩
    · -- membership
      intro x
      rw [List.mem_append, List.mem_reverse]
      constructor
      · rintro (hx | hx)
        · obtain ⟨hxS, hx1⟩ := hos_fact x hx
          have hxv := hval x hxS
          have hx2 : x.2 ≠ (q : Int) := by
            intro h
            have : x ∈ ([] : List (Int × Int)) := hclnil ▸ (hclm x).mpr ⟨hxS, h⟩
            cases this
          exact ⟨hxS, by omega, by omega⟩
        · obtain ⟨hxS, hx1, hx2⟩ := (hmem x).mp hx
          have hx2' : x.2 ≠ (q : Int) := by
            intro h
            have : x ∈ ([] : List (Int × Int)) := hclnil ▸ (hclm x).mpr ⟨hxS, h⟩
            cases this
          exact ⟨hxS, by omega, by omega⟩
      · rintro ⟨hxS, hx1, hx2⟩
        by_cases hq : x.1 = (q : Int)
        · exact Or.inl ((hosm x).mpr ⟨hxS, hq⟩)
        · exact Or.inr ((hmem x).mpr ⟨hxS, by omega, by omega⟩)
    · -- nesting order of the new stack
      rw [List.pairwise_append]
      refine ⟨?_, hpairI, ?_⟩
      · rw [List.pairwise_reverse]
        have h1 : (os.map Prod.snd).Pairwise (fun a b => b.2 ≤ a.2) := by
          rw [List.pairwise_map]
          exact hospair.imp fun h => h
        have h2 := h1.and hosnd
        refine h2.imp_of_mem ?_
        intro a b ha hb hab
        obtain ⟨haS, ha1⟩ := hos_fact a ha
        obtain ⟨hbS, hb1⟩ := hos_fact b hb
        exact ⟨by omega, hab.1, fun h => hab.2 h.symm⟩
      · intro a ha b hb
        rw [List.mem_reverse] at ha
        obtain ⟨haS, ha1⟩ := hos_fact a ha
        obtain ⟨hbS, hb1, hb2⟩ := (hmem b).mp hb
        have hbv := hval b hbS
        have hav := hval a haS
        have hb2' : b.2 ≠ (q : Int) := by
          intro h
          have : b ∈ ([] : List (Int × Int)) := hclnil ▸ (hclm b).mpr ⟨hbS, h⟩
          cases this
        have hne : a ≠ b := by
          intro h
          rw [← h] at hb1
          omega
        rcases hcrossF a haS b hbS hne with h | h | h | h
        · exfalso; omega
        · exfalso; omega
        · exfalso; omega
        · exact ⟨h.1, h.2, hne⟩
  · -- exactly one closing marker
    obtain ⟨pc, hpc⟩ : ∃ pc, cl = [pc] := by
      rcases cl with - | ⟨pc, rest⟩
      · cases hclone
      · rcases rest with - | ⟨d, rest'⟩
        · exact ⟨pc, rfl⟩
        · simp only [List.map_cons] at hclone
          cases hclone
    subst hpc
    simp only [List.map_cons, List.map_nil] at hclone
    have hc_eq : pc.2 = c := by
      injection hclone
    have hcS : c ∈ S ∧ c.2 = (q : Int) := by
      have := hcl_fact pc.2 (by simp)
      rwa [hc_eq] at this
    have hcv := hval c hcS.1
    -- case on whether any span opens here
    rcases hos : os.map Prod.snd with - | ⟨o, osRest⟩
    · -- no opens: the close pops the innermost active span
      have hosnil : os = [] := List.map_eq_nil.mp hos
      subst hosnil
      have hc1 : c.1 < (q : Int) := by
        have hle : c.1 ≤ (q : Int) := by
          have h1 := hcv.2
          have h2 := hcS.2
          omega
        rcases lt_or_eq_of_le hle with h | h
        · exact h
        · exfalso
          have : c ∈ ([] : List (Int × Int)) :=
            hos ▸ (hosm c).mpr ⟨hcS.1, h⟩
          cases this
      have hcst : c ∈ st := (hmem c).mpr ⟨hcS.1, hc1, le_of_eq hcS.2.symm⟩
      rcases hst : st with - | ⟨h0, t⟩
      · rw [hst] at hcst; cases hcst
      · have hhead : h0 = c := by
          by_contra hne
          have hct : c ∈ t := by
            rw [hst] at hcst
            rcases List.mem_cons.mp hcst with h | h
            · exact absurd h.symm hne
            · exact h
          have hpair' := hst ▸ hpairI
          have hIns : Inside h0 c := (List.pairwise_cons.mp hpair').1 c hct
          have hh0 : h0 ∈ st := hst ▸ List.mem_cons_self h0 t
          obtain ⟨hh0S, hh01, hh02⟩ := (hmem h0).mp hh0
          have hh02' : h0.2 = (q : Int) := by
            have := hIns.2.1
            omega
          have : h0 ∈ [c] := hclone ▸ (hclm h0).mpr ⟨hh0S, hh02'⟩
          rcases List.mem_singleton.mp this with h
          exact hne h
        refine ⟨t, ?_, ?_, ?_⟩
        · rw [hhead]
          simp only [List.map_nil, List.reverse_nil, List.nil_append,
            List.map_cons, List.foldl_cons, List.foldl_nil]
          show scanStep (some (c :: t)) (Elem.tag true pc.1 pc.2) = some t
          rw [hc_eq]
          show (if c = c then some t else none) = some t
          rw [if_pos rfl]
        · intro x
          have hnodupst : (h0 :: t).Nodup := hst ▸ hst_nodup
          constructor
          · intro hx
            have hxst : x ∈ st := hst ▸ List.mem_cons_of_mem h0 hx
            obtain ⟨hxS, hx1, hx2⟩ := (hmem x).mp hxst
            have hxc : x ≠ c := by
              intro h
              rw [← hhead] at h
              subst h
              exact (List.nodup_cons.mp hnodupst).1 hx
            have hx2' : x.2 ≠ (q : Int) := by
              intro h
              have : x ∈ [c] := hclone ▸ (hclm x).mpr ⟨hxS, h⟩
              exact hxc (List.mem_singleton.mp this)
            exact ⟨hxS, by omega, by omega⟩
          · rintro ⟨hxS, hx1, hx2⟩
            have hx1' : x.1 < (q : Int) := by
              rcases lt_or_eq_of_le (by omega : x.1 ≤ (q : Int)) with h | h
              · exact h
              · exfalso
                have : x ∈ ([] : List (Int × Int)) :=
                  hos ▸ (hosm x).mpr ⟨hxS, h⟩
                cases this
            have hxst : x ∈ st := (hmem x).mpr ⟨hxS, hx1', by omega⟩
            rw [hst] at hxst
            rcases List.mem_cons.mp hxst with h | h
            · exfalso
              rw [hhead] at h
              subst h
              omega
            · exact h
        · exact (List.pairwise_cons.mp (hst ▸ hpairI)).2
    · -- opens and a close together force a single empty span
      have hoS := hos_fact o (hos ▸ List.mem_cons_self o osRest)
      have hoc : c = o := by
        by_contra hne
        exact (hsepF c hcS.1 o hoS.1 hne).2.1 (hcS.2.trans hoS.2.symm)
      have hrest : osRest = [] := by
        rw [List.eq_nil_iff_forall_not_mem]
        intro y hy
        have hyS := hos_fact y (hos ▸ List.mem_cons_of_mem o hy)
        have hnd' := hos ▸ hosnd
        have hyo : y ≠ o := by
          intro h
          exact (List.nodup_cons.mp hnd').1 (h ▸ hy)
        have hyc : y ≠ c := fun h => hyo (h.symm ▸ hoc ▸ rfl)
        exact (hsepF y hyS.1 c hcS.1 hyc).2.2 (hyS.2.trans hcS.2.symm)
      rw [hrest] at hos
      refine ⟨st, ?_, ?_, ?_⟩
      · rw [hrest]
        have hr : ([o] : List (Int × Int)).reverse ++ st = c :: st := by
          rw [hoc]; rfl
        rw [hr, List.map_cons, List.map_nil, List.foldl_cons, List.foldl_nil]
        show scanStep (some (c :: st)) (Elem.tag true pc.1 pc.2) = some st
        rw [hc_eq]
        show (if c = c then some st else none) = some st
        rw [if_pos rfl]
      · intro x
        constructor
        · intro hx
          obtain ⟨hxS, hx1, hx2⟩ := (hmem x).mp hx
          have hx2' : x.2 ≠ (q : Int) := by
            intro h
            have : x ∈ [c] := hclone ▸ (hclm x).mpr ⟨hxS, h⟩
            have hxc := List.mem_singleton.mp this
            subst hxc
            have := hoc ▸ hoS.2
            omega
          exact ⟨hxS, by omega, by omega⟩
        · rintro ⟨hxS, hx1, hx2⟩
          have hx1' : x.1 < (q : Int) := by
            rcases lt_or_eq_of_le (by omega : x.1 ≤ (q : Int)) with h | h
            · exact h
            · exfalso
              have : x ∈ [o] := hos ▸ (hosm x).mpr ⟨hxS, h⟩
              have hxo := List.mem_singleton.mp this
              subst hxo
              have h2 := hoc ▸ hcS.2
              omega
          exact (hmem x).mpr ⟨hxS, hx1', by omega⟩
      · exact hpairI

/-- Scanning the woven working list block by block preserves the invariant. -/
lemma scan_weave
    (S : List (Int × Int))
    (hval : ∀ x ∈ S, 0 ≤ x.1 ∧ x.1 ≤ x.2)
    (hsepF : ∀ x ∈ S, ∀ y ∈ S, x ≠ y → SepEnds x y)
    (hcrossF : ∀ x ∈ S, ∀ y ∈ S, x ≠ y → NonCrossing x y)
    (g : Nat → List Elem)
    (hg : ∀ q : Nat, ∃ os cl : List (BoundingBox × (Int × Int)),
      g q = os.map (fun p => Elem.tag false p.1 p.2)
          ++ cl.map (fun p => Elem.tag true p.1 p.2) ∧
      (∀ x, x ∈ os.map Prod.snd ↔ x ∈ S ∧ x.1 = (q : Int)) ∧
      (∀ x, x ∈ cl.map Prod.snd ↔ x ∈ S ∧ x.2 = (q : Int)) ∧
      os.Pairwise (fun a b => b.2.2 ≤ a.2.2) ∧
      (os.map Prod.snd).Nodup ∧ (cl.map Prod.snd).Nodup) :
    ∀ (cs : List Char) (k : Nat) (st : List (Int × Int)), Inv S k st →
      ∃ st', (weave g k cs).foldl scanStep (some st) = some st' ∧
        Inv S (k + cs.length + 1) st' := by
  intro cs
  induction cs with
  | nil =>
    intro k st hinv
    obtain ⟨os, cl, hgq, h1, h2, h3, h4, h5⟩ := hg k
    obtain ⟨st', heq, hinv'⟩ :=
      block_transition S hval hsepF hcrossF k st hinv os cl h1 h2 h3 h4 h5
    refine ⟨st', ?_, by simpa using hinv'⟩
    show (g k).foldl scanStep (some st) = some st'
    rw [hgq]
    exact heq
  | cons c t ih =>
    intro k st hinv
    obtain ⟨os, cl, hgq, h1, h2, h3, h4, h5⟩ := hg k
    obtain ⟨st1, heq1, hinv1⟩ :=
      block_transition S hval hsepF hcrossF k st hinv os cl h1 h2 h3 h4 h5
    obtain ⟨st', heq2, hinv2⟩ := ih (k + 1) st1 hinv1
    refine ⟨st', ?_, ?_⟩
    · show (g k ++ Elem.ch c :: weave g (k + 1) t).foldl scanStep (some st)
        = some st'
      rw [List.foldl_append, hgq, heq1, List.foldl_cons]
      exact heq2
    · have harith : k + (c :: t).length + 1 = k + 1 + t.length + 1 := by
        rw [List.length_cons]; omega
      rw [harith]
      exact hinv2

/-- The function `annotate` produces well-nested markup whenever the spans are valid,
pairwise non-crossing, and no two distinct map entries share an end
position or have one span's end at another span's start. -/
lemma wellNested_annotatedElems (r : OcrResult)
    (hv : ValidSpans r)
    (hcross : (r.bounding_boxes.map Prod.snd).Pairwise NonCrossing)
    (hsep : (r.bounding_boxes.map Prod.snd).Pairwise SepEnds) :
    WellNested (annotatedElems r) := by
  classical
  set S := r.bounding_boxes.map Prod.snd with hS_def
  have hS_nodup : S.Nodup := by
    refine hsep.imp ?_
    intro a b h heq
    exact h.1 (by rw [heq])
  have hmemS : ∀ x, x ∈ S ↔ ∃ p ∈ r.bounding_boxes, p.2 = x := by
    intro x
    rw [hS_def, List.mem_map]
  have hval' : ∀ x ∈ S, 0 ≤ x.1 ∧ x.1 ≤ x.2 := by
    intro x hx
    obtain ⟨p, hp, rfl⟩ := (hmemS x).mp hx
    have := hv p hp
    exact ⟨this.1, this.2.1⟩
  have hubound : ∀ x ∈ S, x.2 ≤ (r.markdown_content.length : Int) := by
    intro x hx
    obtain ⟨p, hp, rfl⟩ := (hmemS x).mp hx
    exact (hv p hp).2.2
  have hsepF := pairwise_to_forall sepEnds_symm hsep
  have hcrossF := pairwise_to_forall nonCrossing_symm hcross
  have hinj : ∀ p ∈ r.bounding_boxes, ∀ p' ∈ r.bounding_boxes,
      p.2 = p'.2 → p = p' :=
    List.inj_on_of_nodup_map (hS_def ▸ hS_nodup)
  have hg : ∀ q : Nat, ∃ os cl : List (BoundingBox × (Int × Int)),
      blockAt (sortedInsertions r) q
        = os.map (fun p => Elem.tag false p.1 p.2)
          ++ cl.map (fun p => Elem.tag true p.1 p.2) ∧
      (∀ x, x ∈ os.map Prod.snd ↔ x ∈ S ∧ x.1 = (q : Int)) ∧
      (∀ x, x ∈ cl.map Prod.snd ↔ x ∈ S ∧ x.2 = (q : Int)) ∧
      os.Pairwise (fun a b => b.2.2 ≤ a.2.2) ∧
      (os.map Prod.snd).Nodup ∧ (cl.map Prod.snd).Nodup := by
    intro q
    obtain ⟨os, cl, hblock, hosm, hclm, hospair, hosnd, hclnd⟩ :=
      block_shape r (hS_def ▸ hS_nodup) q
    refine ⟨os, cl, hblock, ?_, ?_, hospair, ?_, ?_⟩
    · intro x
      rw [List.mem_map]
      constructor
      · rintro ⟨p, hp, rfl⟩
        obtain ⟨hpS, hq⟩ := (hosm p).mp hp
        exact ⟨(hmemS p.2).mpr ⟨p, hpS, rfl⟩, hq⟩
      · rintro ⟨hxS, hq⟩
        obtain ⟨p, hp, rfl⟩ := (hmemS x).mp hxS
        exact ⟨p, (hosm p).mpr ⟨hp, hq⟩, rfl⟩
    · intro x
      rw [List.mem_map]
      constructor
      · rintro ⟨p, hp, rfl⟩
        obtain ⟨hpS, hq⟩ := (hclm p).mp hp
        exact ⟨(hmemS p.2).mpr ⟨p, hpS, rfl⟩, hq⟩
      · rintro ⟨hxS, hq⟩
        obtain ⟨p, hp, rfl⟩ := (hmemS x).mp hxS
        exact ⟨p, (hclm p).mpr ⟨hp, hq⟩, rfl⟩
    · refine List.Nodup.map_on ?_ hosnd
      intro p hp p' hp' hpp
      exact hinj p ((hosm p).mp hp).1 p' ((hosm p').mp hp').1 hpp
    · refine List.Nodup.map_on ?_ hclnd
      intro p hp p' hp' hpp
      exact hinj p ((hclm p).mp hp).1 p' ((hclm p').mp hp').1 hpp
  have hinv0 : Inv S 0 [] := by
    constructor
    · intro x
      simp only [List.not_mem_nil, false_iff]
      rintro ⟨hxS, hx1, -⟩
      have := (hval' x hxS).1
      omega
    · exact List.Pairwise.nil
  obtain ⟨st', heq, hinv'⟩ := scan_weave S hval' hsepF hcrossF
    (blockAt (sortedInsertions r)) hg r.markdown_content.data 0 [] hinv0
  have hst' : st' = [] := by
    rw [List.eq_nil_iff_forall_not_mem]
    intro x hx
    obtain ⟨hxS, -, hx2⟩ := (hinv'.1 x).mp hx
    have h1 := hubound x hxS
    have h2 : ((0 + r.markdown_content.data.length + 1 : Nat) : Int) ≤ x.2 := hx2
    have h3 : r.markdown_content.data.length = r.markdown_content.length := rfl
    omega
  rw [WellNested, annotatedElems_eq_weave r hv, heq, hst']

/-! ### Coverage computation (process_document, lines 196-220)

`process_document` collects the spans of the alignment map, sorts them
(Python tuple order), merges overlapping-or-touching intervals in a single
sweep keeping the last merged interval mutable, sums the merged lengths and
divides by the markdown length (0.0 for empty markdown).  The accumulator of
`mergeStep` is kept newest-interval-first; the Python list is its reverse. -/

/-- One iteration of the merge loop
`if not merged or start > merged[-1][1]: merged.append((start, end))
else: merged[-1] = (merged[-1][0], max(merged[-1][1], end))`,
with the merged list kept in reverse (newest first). -/
def mergeStep (acc : List (Int × Int)) (sp : Int × Int) : List (Int × Int) :=
  match acc with
  | [] => [sp]
  | (cs, ce) :: t => if sp.1 > ce then sp :: (cs, ce) :: t else (cs, max ce sp.2) :: t

/-- The merged interval list of the sweep (in Python order). -/
def mergeSpans (spans : List (Int × Int)) : List (Int × Int) :=
  (spans.foldl mergeStep []).reverse

/-- Python tuple comparison on `(start, end)` pairs (lexicographic), as used
by `spans.sort()`. -/
def spanLe (a b : Int × Int) : Prop :=
  a.1 < b.1 ∨ (a.1 = b.1 ∧ a.2 ≤ b.2)

instance : DecidableRel spanLe := fun a b => by unfold spanLe; infer_instance

instance : IsTotal (Int × Int) spanLe := ⟨by intro a b; unfold spanLe; omega⟩

instance : IsTrans (Int × Int) spanLe := ⟨by intro a b c; unfold spanLe; omega⟩

/-- Embeds `spans.sort()`. -/
def sortSpans (l : List (Int × Int)) : List (Int × Int) :=
  List.insertionSort spanLe l

/-- Sum of the merged interval lengths
(`sum(end - start for start, end in merged)`). -/
def coveredLen (l : List (Int × Int)) : Int :=
  (l.map fun p => p.2 - p.1).sum

/-- Embeds the coverage computation of `process_document`: `0.0` for empty
markdown, otherwise merged covered length over markdown length.  Python
divides machine integers as IEEE floats; over the values concerned the
rational result agrees in all properties stated here. -/
def coveragePercent (md : String) (spans : List (Int × Int)) : ℚ :=
  if md.length = 0 then 0
  else (coveredLen (mergeSpans (sortSpans spans)) : ℚ) / (md.length : ℚ)

/-- The set of character positions covered by a list of spans. -/
def coveredSet (spans : List (Int × Int)) : Finset ℤ :=
  spans.foldr (fun p acc => Finset.Ico p.1 p.2 ∪ acc) ∅

lemma coveredSet_cons (p : Int × Int) (l : List (Int × Int)) :
    coveredSet (p :: l) = Finset.Ico p.1 p.2 ∪ coveredSet l := rfl

lemma mem_coveredSet {l : List (Int × Int)} {i : ℤ} :
    i ∈ coveredSet l ↔ ∃ p ∈ l, p.1 ≤ i ∧ i < p.2 := by
  induction l with
  | nil => simp [coveredSet]
  | cons p t ih =>
    rw [coveredSet_cons]
    simp only [Finset.mem_union, Finset.mem_Ico, ih, List.mem_cons]
    constructor
    · rintro (h | ⟨p', hp', h⟩)
      · exact ⟨p, Or.inl rfl, h⟩
      · exact ⟨p', Or.inr hp', h⟩
    · rintro ⟨p', rfl | hp', h⟩
      · exact Or.inl h
      · exact Or.inr ⟨p', hp', h⟩

lemma coveredSet_perm {l l' : List (Int × Int)} (h : l.Perm l') :
    coveredSet l = coveredSet l' := by
  ext i
  rw [mem_coveredSet, mem_coveredSet]
  constructor <;> rintro ⟨p, hp, hi⟩
  · exact ⟨p, h.mem_iff.mp hp, hi⟩
  · exact ⟨p, h.mem_iff.mpr hp, hi⟩

/-- Main invariant of the merge sweep: intervals stay well-formed, the
reversed accumulator is separated newest-first, and the union of positions
is preserved. -/
lemma foldl_mergeStep_props :
    ∀ (l acc : List (Int × Int)),
      (∀ p ∈ l, p.1 ≤ p.2) →
      List.Pairwise (fun a b : Int × Int => a.1 ≤ b.1) l →
      (∀ m ∈ acc, m.1 ≤ m.2) →
      List.Chain' (fun a b : Int × Int => b.2 < a.1) acc →
      (∀ p ∈ l, ∀ m ∈ acc.head?, m.1 ≤ p.1) →
      (∀ m ∈ l.foldl mergeStep acc, m.1 ≤ m.2) ∧
      List.Chain' (fun a b : Int × Int => b.2 < a.1) (l.foldl mergeStep acc) ∧
      coveredSet (l.foldl mergeStep acc) = coveredSet l ∪ coveredSet acc := by
  intro l
  induction l with
  | nil =>
    intro acc _ _ hawf hach _
    refine ⟨hawf, hach, ?_⟩
    simp [coveredSet]
  | cons sp l' ih =>
    intro acc hwf hpair hawf hach hhead
    have hspwf : sp.1 ≤ sp.2 := hwf sp (List.mem_cons_self sp l')
    have hwf' : ∀ p ∈ l', p.1 ≤ p.2 :=
      fun p hp => hwf p (List.mem_cons_of_mem sp hp)
    have hpair' : List.Pairwise (fun a b : Int × Int => a.1 ≤ b.1) l' :=
      hpair.of_cons
    have hstarts : ∀ p ∈ l', sp.1 ≤ p.1 :=
      fun p hp => List.rel_of_pairwise_cons hpair hp
    rw [List.foldl_cons]
    rcases hacc : acc with - | ⟨⟨cs, ce⟩, t⟩
    · -- empty accumulator: push sp
      have hstep : mergeStep [] sp = [sp] := rfl
      obtain ⟨r1, r2, r3⟩ := ih [sp] hwf' hpair'
        (by intro m hm; rcases List.mem_singleton.mp hm with rfl; exact hspwf)
        (List.chain'_singleton sp)
        (by
          intro p hp m hm
          rcases Option.mem_some_iff.mp hm with rfl
          exact hstarts p hp)
      rw [hstep]
      refine ⟨r1, r2, ?_⟩
      rw [r3, coveredSet_cons, coveredSet_cons]
      ext i
      simp only [Finset.mem_union, coveredSet, List.foldr_nil,
        Finset.not_mem_empty]
      tauto
    · by_cases hgt : sp.1 > ce
      · -- separated: push sp
        have hstep : mergeStep ((cs, ce) :: t) sp = sp :: (cs, ce) :: t := by
          simp [mergeStep, hgt]
        obtain ⟨r1, r2, r3⟩ := ih (sp :: (cs, ce) :: t) hwf' hpair'
          (by
            intro m hm
            rcases List.mem_cons.mp hm with rfl | hm
            · exact hspwf
            · exact hawf m (hacc ▸ hm))
          (by
            refine List.chain'_cons.mpr ⟨hgt, ?_⟩
            exact hacc ▸ hach)
          (by
            intro p hp m hm
            rcases Option.mem_some_iff.mp hm with rfl
            exact hstarts p hp)
        rw [hstep]
        refine ⟨r1, r2, ?_⟩
        rw [r3, coveredSet_cons, coveredSet_cons, coveredSet_cons]
        ext i
        simp only [Finset.mem_union]
        tauto
      · -- overlapping or touching: extend the newest interval
        have hle : sp.1 ≤ ce := not_lt.mp hgt
        have hcsce : cs ≤ ce := hawf (cs, ce) (hacc ▸ List.mem_cons_self _ t)
        have hcs_sp : cs ≤ sp.1 := by
          have := hhead sp (List.mem_cons_self sp l') (cs, ce)
            (by rw [hacc]; rfl)
          exact this
        have hstep : mergeStep ((cs, ce) :: t) sp = (cs, max ce sp.2) :: t := by
          simp [mergeStep, hgt]
        have hach' : List.Chain' (fun a b : Int × Int => b.2 < a.1)
            ((cs, max ce sp.2) :: t) := by
          rcases t with - | ⟨t0, t'⟩
          · exact List.chain'_singleton _
          · have hchold : List.Chain' (fun a b : Int × Int => b.2 < a.1)
                ((cs, ce) :: t0 :: t') := hacc ▸ hach
            have h1 : t0.2 < cs := (List.chain'_cons.mp hchold).1
            exact List.chain'_cons.mpr ⟨h1, (List.chain'_cons.mp hchold).2⟩
        obtain ⟨r1, r2, r3⟩ := ih ((cs, max ce sp.2) :: t) hwf' hpair'
          (by
            intro m hm
            rcases List.mem_cons.mp hm with rfl | hm
            · simp only []
              omega
            · exact hawf m (hacc ▸ List.mem_cons_of_mem _ hm))
          hach'
          (by
            intro p hp m hm
            rcases Option.mem_some_iff.mp hm with rfl
            have h1 := hstarts p hp
            simp only []
            omega)
        rw [hstep]
        refine ⟨r1, r2, ?_⟩
        rw [r3, coveredSet_cons, coveredSet_cons, coveredSet_cons]
        have hsplit : Finset.Ico cs (max ce sp.2)
            = Finset.Ico (cs : ℤ) ce ∪ Finset.Ico sp.1 sp.2 := by
          ext i
          simp only [Finset.mem_union, Finset.mem_Ico]
          omega
        rw [hsplit]
        ext i
        simp only [Finset.mem_union]
        tauto

/-- In a separated newest-first accumulator, all positions covered by the
tail lie strictly below the head interval's start. -/
lemma coveredSet_tail_lt :
    ∀ (t : List (Int × Int)) (m : Int × Int),
      (∀ p ∈ t, p.1 ≤ p.2) →
      List.Chain' (fun a b : Int × Int => b.2 < a.1) (m :: t) →
      ∀ p ∈ t, p.2 < m.1 := by
  intro t
  induction t with
  | nil => intro m _ _ p hp; cases hp
  | cons t0 t' ih =>
    intro m hwf hch p hp
    have h0 : t0.2 < m.1 := (List.chain'_cons.mp hch).1
    rcases List.mem_cons.mp hp with rfl | hp'
    · exact h0
    · have h1 := ih t0 (fun p hp => hwf p (List.mem_cons_of_mem t0 hp))
        (List.chain'_cons.mp hch).2 p hp'
      have h2 : t0.1 ≤ t0.2 := hwf t0 (List.mem_cons_self t0 t')
      omega

/-- For a well-formed separated list, the summed lengths equal the number of
covered positions. -/
lemma coveredLen_eq_card :
    ∀ l : List (Int × Int),
      (∀ m ∈ l, m.1 ≤ m.2) →
      List.Chain' (fun a b : Int × Int => b.2 < a.1) l →
      coveredLen l = ((coveredSet l).card : Int) := by
  intro l
  induction l with
  | nil => intro _ _; simp [coveredLen, coveredSet]
  | cons m t ih =>
    intro hwf hch
    have hdisj : Disjoint (Finset.Ico m.1 m.2) (coveredSet t) := by
      rw [Finset.disjoint_left]
      intro i hi hit
      rw [Finset.mem_Ico] at hi
      rw [mem_coveredSet] at hit
      obtain ⟨p, hp, hip⟩ := hit
      have := coveredSet_tail_lt t m
        (fun p hp => hwf p (List.mem_cons_of_mem m hp)) hch p hp
      omega
    rw [coveredSet_cons, Finset.card_union_of_disjoint hdisj]
    have hlen : coveredLen (m :: t) = (m.2 - m.1) + coveredLen t := by
      simp [coveredLen]
    rw [hlen, ih (fun p hp => hwf p (List.mem_cons_of_mem m hp)) hch.tail,
      Int.card_Ico]
    have : m.1 ≤ m.2 := hwf m (List.mem_cons_self m t)
    push_cast
    omega

/-- Collected correctness facts about the coverage computation, for spans
valid against the markdown. -/
lemma coverage_props (md : String) (spans : List (Int × Int))
    (hv : ∀ p ∈ spans, 0 ≤ p.1 ∧ p.1 ≤ p.2 ∧ p.2 ≤ (md.length : Int)) :
    (0 ≤ coveragePercent md spans ∧ coveragePercent md spans ≤ 1) ∧
    (coveragePercent md spans = 0 ↔
      md.length = 0 ∨ ∀ p ∈ spans, p.1 = p.2) ∧
    (coveragePercent md spans = 1 ↔ md.length ≠ 0 ∧
      coveredSet (mergeSpans (sortSpans spans))
        = Finset.Ico 0 (md.length : Int)) := by
  classical
  by_cases hmd : md.length = 0
  · rw [coveragePercent, if_pos hmd]
    refine ⟨⟨le_refl 0, by norm_num⟩, ?_, ?_⟩
    · simp [hmd]
    · constructor
      · intro h; exact absurd h (by norm_num)
      · rintro ⟨h, -⟩; exact absurd hmd h
  · have hperm : (sortSpans spans).Perm spans :=
      List.perm_insertionSort spanLe spans
    have hwf_s : ∀ p ∈ sortSpans spans, p.1 ≤ p.2 := by
      intro p hp
      exact (hv p (hperm.mem_iff.mp hp)).2.1
    have hpair_s : (sortSpans spans).Pairwise
        (fun a b : Int × Int => a.1 ≤ b.1) := by
      have h := List.sorted_insertionSort spanLe spans
      refine h.imp ?_
      intro a b hab
      rcases hab with h | ⟨h, -⟩ <;> omega
    obtain ⟨pwf, pch, punion⟩ := foldl_mergeStep_props (sortSpans spans) []
      hwf_s hpair_s (by intro m hm; cases hm) List.chain'_nil
      (by intro p hp m hm; cases hm)
    have hcov_res : coveredSet ((sortSpans spans).foldl mergeStep [])
        = coveredSet spans := by
      rw [punion]
      have h0 : coveredSet ([] : List (Int × Int)) = ∅ := rfl
      rw [h0, Finset.union_empty]
      exact coveredSet_perm hperm
    have hmerged : mergeSpans (sortSpans spans)
        = ((sortSpans spans).foldl mergeStep []).reverse := rfl
    have hcov_merged : coveredSet (mergeSpans (sortSpans spans))
        = coveredSet spans := by
      rw [hmerged,
        coveredSet_perm (List.reverse_perm ((sortSpans spans).foldl mergeStep [])),
        hcov_res]
    have hlen_merged : coveredLen (mergeSpans (sortSpans spans))
        = (((coveredSet spans).card : Int)) := by
      rw [hmerged]
      have h1 : coveredLen ((sortSpans spans).foldl mergeStep []).reverse
          = coveredLen ((sortSpans spans).foldl mergeStep []) := by
        unfold coveredLen
        rw [List.map_reverse, List.sum_reverse]
      rw [h1, coveredLen_eq_card _ pwf pch, hcov_res]
    have hsub : coveredSet spans ⊆ Finset.Ico 0 (md.length : Int) := by
      intro i hi
      rw [mem_coveredSet] at hi
      obtain ⟨p, hp, h⟩ := hi
      have := hv p hp
      rw [Finset.mem_Ico]
      omega
    have hcard_Ico : (Finset.Ico (0 : ℤ) (md.length : Int)).card = md.length := by
      rw [Int.card_Ico]
      omega
    have hcard_le : (coveredSet spans).card ≤ md.length := by
      have := Finset.card_le_card hsub
      rwa [hcard_Ico] at this
    have hnQ : (0 : ℚ) < (md.length : ℚ) := by
      exact_mod_cast Nat.pos_of_ne_zero hmd
    rw [coveragePercent, if_neg hmd, hlen_merged]
    have hcast : ((((coveredSet spans).card : Int)) : ℚ)
        = ((coveredSet spans).card : ℚ) := by push_cast; ring
    rw [hcast]
    refine ⟨⟨?_, ?_⟩, ?_, ?_⟩
    · exact div_nonneg (by positivity) (le_of_lt hnQ)
    · rw [div_le_one hnQ]
      exact_mod_cast hcard_le
    · rw [div_eq_zero_iff]
      constructor
      · rintro (h | h)
        · right
          have hK0 : (coveredSet spans).card = 0 := by exact_mod_cast h
          have hempty : coveredSet spans = ∅ := Finset.card_eq_zero.mp hK0
          intro p hp
          by_contra hne
          have hlt : p.1 < p.2 := lt_of_le_of_ne (hv p hp).2.1 hne
          have hmem : p.1 ∈ coveredSet spans :=
            mem_coveredSet.mpr ⟨p, hp, le_refl _, hlt⟩
          rw [hempty] at hmem
          exact Finset.not_mem_empty _ hmem
        · exact absurd h (ne_of_gt hnQ)
      · rintro (h | h)
        · exact absurd h hmd
        · have hempty : coveredSet spans = ∅ := by
            rw [Finset.eq_empty_iff_forall_not_mem]
            intro i hi
            rw [mem_coveredSet] at hi
            obtain ⟨p, hp, hle, hlt⟩ := hi
            have := h p hp
            omega
          left
          rw [hempty]
          simp
    · rw [div_eq_one_iff_eq (ne_of_gt hnQ)]
      constructor
      · intro h
        refine ⟨hmd, ?_⟩
        have hKlen : (coveredSet spans).card = md.length := by exact_mod_cast h
        rw [hcov_merged]
        refine Finset.eq_of_subset_of_card_le hsub ?_
        rw [hcard_Ico, hKlen]
      · rintro ⟨-, h⟩
        rw [hcov_merged] at h
        have hKlen : (coveredSet spans).card = md.length := by
          rw [h, hcard_Ico]
        exact_mod_cast hKlen

/-- The sweep is the identity on lists whose consecutive intervals are
strictly separated (each start strictly beyond the previous end). -/
lemma foldl_mergeStep_separated :
    ∀ (l : List (Int × Int)) (m : Int × Int) (acc : List (Int × Int)),
      List.Chain' (fun a b : Int × Int => a.2 < b.1) (m :: l) →
      l.foldl mergeStep (m :: acc) = l.reverse ++ m :: acc := by
  intro l
  induction l with
  | nil => intro m acc _; rfl
  | cons sp t ih =>
    intro m acc hch
    obtain ⟨cs, ce⟩ := m
    have h1 : ce < sp.1 := (List.chain'_cons.mp hch).1
    rw [List.foldl_cons]
    have hstep : mergeStep ((cs, ce) :: acc) sp = sp :: (cs, ce) :: acc := by
      simp [mergeStep]
      omega
    rw [hstep, ih sp ((cs, ce) :: acc) (List.chain'_cons.mp hch).2]
    simp

/-- The function `mergeSpans` is the identity on separated lists. -/
lemma mergeSpans_separated (l : List (Int × Int))
    (hch : List.Chain' (fun a b : Int × Int => a.2 < b.1) l) :
    mergeSpans l = l := by
  rcases l with - | ⟨x, t⟩
  · rfl
  · unfold mergeSpans
    rw [List.foldl_cons]
    have h0 : mergeStep [] x = [x] := rfl
    rw [h0, foldl_mergeStep_separated t x [] hch]
    rw [List.reverse_append, List.reverse_reverse]
    rfl

/-! ### Settings (settings.py)

The `Settings` dataclass: `__post_init__` runs `_load_from_env` and then
`_validate`.  Environment access is modelled by an explicit lookup function.
Python string truthiness: `None` and `""` are falsy. -/

/-- Embeds `settings.OcrMode`. -/
inductive OcrMode where
  | gemini
  | documentai
  | docling
deriving DecidableEq, Repr

/-- Embeds the `Settings` dataclass fields with their declared defaults.
`float` fields are modelled with `ℚ`. -/
structure Settings where
  project : Option String := none
  location : String := "us"
  gcp_project_id : Option String := none
  layout_processor_id : Option String := none
  ocr_processor_id : Option String := none
  mode : OcrMode := OcrMode.gemini
  gemini_model_name : String := "gemini-2.0-flash-exp"
  alignment_uniqueness_threshold : ℚ := 0.5
  alignment_min_overlap : ℚ := 0.9
  include_bboxes : Bool := true
  markdown_page_batch_size : Int := 10
  ocr_page_batch_size : Int := 10
  num_jobs : Int := 10
  cache_dir : Option String := none
deriving DecidableEq, Repr

/-- An environment: `os.environ.get` semantics. -/
def Env : Type := String → Option String

/-- Python `a or b` over optional strings (`None`/`""` falsy). -/
def pyOrStr (a b : Option String) : Option String :=
  match a with
  | none => b
  | some s => if s = "" then b else some s

/-- Embeds `Settings._load_from_env`. -/
def loadFromEnv (env : Env) (s : Settings) : Settings :=
  let project := match s.project with
    | none => env "GEMINI_OCR_PROJECT"
    | some p => some p
  let gcp_project_id := match s.gcp_project_id with
    | none => pyOrStr (env "GEMINI_OCR_GCP_PROJECT_ID") project
    | some p => some p
  let layout_processor_id := match s.layout_processor_id with
    | none => env "GEMINI_OCR_LAYOUT_PROCESSOR_ID"
    | some p => some p
  let ocr_processor_id := match s.ocr_processor_id with
    | none => env "GEMINI_OCR_OCR_PROCESSOR_ID"
    | some p => some p
  let location := match env "GEMINI_OCR_LOCATION" with
    | some v => if s.location = "us" then v else s.location
    | none => s.location
  { s with
    project := project
    gcp_project_id := gcp_project_id
    layout_processor_id := layout_processor_id
    ocr_processor_id := ocr_processor_id
    location := location }

/-- Python truthiness of an optional string: `not self.field`. -/
def falsyOpt : Option String → Bool
  | none => true
  | some s => s = ""

/-- Embeds `Settings._validate`: only the five identity fields are checked;
the two alignment parameters are not inspected at all. -/
def validateSettings (s : Settings) : Except String Unit :=
  if falsyOpt s.project then
    Except.error "project is required (or GEMINI_OCR_PROJECT env var)"
  else if s.location = "" then
    Except.error "location is required"
  else if falsyOpt s.gcp_project_id then
    Except.error "gcp_project_id is required (or GEMINI_OCR_GCP_PROJECT_ID env var)"
  else if falsyOpt s.layout_processor_id then
    Except.error "layout_processor_id is required (or GEMINI_OCR_LAYOUT_PROCESSOR_ID env var)"
  else if falsyOpt s.ocr_processor_id then
    Except.error "ocr_processor_id is required (or GEMINI_OCR_OCR_PROCESSOR_ID env var)"
  else Except.ok ()

/-- Embeds `Settings.__post_init__` (dataclass construction): load missing
fields from the environment, then validate; a `ValueError` aborts
construction. -/
def mkSettings (env : Env) (s : Settings) : Except String Settings :=
  let s' := loadFromEnv env s
  match validateSettings s' with
  | Except.ok _ => Except.ok s'
  | Except.error e => Except.error e

/-- The attribute names defined on the `Settings` class in settings.py:
its dataclass fields and its three methods.  (The dataclass machinery adds
only dunder attributes such as `__init__`; nothing named `from_env` is
defined anywhere in the module.) -/
def settingsClassAttrs : List String :=
  ["project", "location", "gcp_project_id", "layout_processor_id",
   "ocr_processor_id", "mode", "gemini_model_name",
   "alignment_uniqueness_threshold", "alignment_min_overlap",
   "include_bboxes", "markdown_page_batch_size", "ocr_page_batch_size",
   "num_jobs", "cache_dir", "__post_init__", "_load_from_env", "_validate"]

/-- Python attribute lookup on the `Settings` class. -/
def settingsAttrLookup (attrName : String) : Option String :=
  settingsClassAttrs.find? (fun a => a = attrName)

/-- A Python exception raised by the modelled entry points. -/
inductive PyError where
  | attributeError (msg : String)
  | valueError (msg : String)
deriving DecidableEq, Repr

/-- Embeds the common prologue of `extract_raw_data` and `process_document`
(gemini_ocr.py lines 145-146 and 182-183):
`if settings is None: settings = settings_module.Settings.from_env()`.
Evaluating `Settings.from_env` is an attribute lookup on the class; a failed
lookup raises `AttributeError` before any document processing starts.  (The
second branch is unreachable because the lookup fails, as proved below; the
call itself is therefore not modelled.) -/
def resolveSettingsArg (settings : Option Settings) : Except PyError Settings :=
  match settings with
  | some s => Except.ok s
  | none =>
      match settingsAttrLookup "from_env" with
      | none => Except.error (PyError.attributeError
          "type object Settings has no attribute from_env")
      | some _ => Except.error (PyError.attributeError "unreachable")

/-! ### Page-marker rebasing (_generate_markdown_for_chunk, lines 109-114)

`re.sub(r"<!-{2,3}\s*page:\s*(\d+)\s*-->", _adjust_page_num, text)` rewrites
each page marker to `f"<!--page: {chunk.start_page + relative_page_num}-->"`.
The scan below implements the regex left to right, non-overlapping, with the
pattern's one greedy choice (`-{2,3}`) resolved deterministically: when a
third hyphen is present the two-hyphen reading always fails, because `\s*`
followed by `page:` never matches a hyphen.  On a `str` pattern `\s` matches
exactly CPython's Unicode whitespace set, a fixed list of 29 code points
transcribed below; `\d` matches every decimal digit (Unicode category Nd) of
the interpreter's Unicode tables, and `int()` parses those digits by their
decimal values.  The Nd tables grow with the Unicode version the Python
build ships, so the scan is parameterized by a `DigitClass` packaging the
digit predicate, the digit values, and the classification facts that every
Unicode version guarantees; the theorems hold for all of them at once. -/

/-- Unicode whitespace matched by `\s` on a `str` pattern (CPython's
`Py_UNICODE_ISSPACE`): tab through carriage return, the four information
separators, space, next line, no-break space, Ogham space mark, the
`U+2000`-`U+200A` spaces, the line and paragraph separators, narrow no-break
space, medium mathematical space, and ideographic space. -/
def isSpc (c : Char) : Bool :=
  (9 ≤ c.toNat && c.toNat ≤ 13) || (28 ≤ c.toNat && c.toNat ≤ 32)
    || c.toNat == 0x85 || c.toNat == 0xA0 || c.toNat == 0x1680
    || (0x2000 ≤ c.toNat && c.toNat ≤ 0x200A) || c.toNat == 0x2028
    || c.toNat == 0x2029 || c.toNat == 0x202F || c.toNat == 0x205F
    || c.toNat == 0x3000

/-- The decimal-digit tables of the hosting interpreter: `isDig` is the set
matched by `\d` on a `str` pattern (Unicode category Nd) and `val` the
decimal value `int()` assigns to each digit.  Both depend on the Unicode
version of the Python build, so the scan and the theorems quantify over
them.  The fields `spc_not_dig` and `dash_not_dig` are the only
classification facts the proofs use, and every Unicode version satisfies
them: no whitespace character and no hyphen is a decimal digit.  The fields
`ascii_dig` and `ascii_val` pin down the ASCII digits `0`-`9`, which all
versions share with the values `int()` gives them. -/
structure DigitClass where
  isDig : Char → Bool
  val : Char → Nat
  spc_not_dig : ∀ c : Char, isSpc c = true → isDig c = false
  dash_not_dig : isDig '-' = false
  ascii_dig : ∀ c : Char, 48 ≤ c.toNat → c.toNat ≤ 57 → isDig c = true
  ascii_val : ∀ c : Char, 48 ≤ c.toNat → c.toNat ≤ 57 → val c = c.toNat - 48

/-- Value of a digit group, as computed by `int(match.group(1))`. -/
def digitsToNat (D : DigitClass) (ds : List Char) : Nat :=
  ds.foldl (fun n c => 10 * n + D.val c) 0

/-- Consume an expected literal prefix. -/
def dropPrefixChars : List Char → List Char → Option (List Char)
  | [], l => some l
  | _ :: _, [] => none
  | c :: p, d :: l => if d = c then dropPrefixChars p l else none

/-- The optional third hyphen of `-{2,3}`. -/
def hyphenSkip : List Char → List Char
  | '-' :: t => t
  | l => l

/-- Tail of the match after the digit group has been read. -/
def afterDigits (D : DigitClass) (ds r4 : List Char) : Option (Nat × List Char) :=
  if ds.isEmpty then none
  else
    match dropPrefixChars "-->".data ((r4.dropWhile D.isDig).dropWhile isSpc) with
    | none => none
    | some r7 => some (digitsToNat D ds, r7)

/-- Match of the pattern after its leading `<!--`. -/
def matchPageTail (D : DigitClass) (r0 : List Char) : Option (Nat × List Char) :=
  match dropPrefixChars "page:".data ((hyphenSkip r0).dropWhile isSpc) with
  | none => none
  | some r3 =>
      afterDigits D ((r3.dropWhile isSpc).takeWhile D.isDig) (r3.dropWhile isSpc)

/-- Match of the whole pattern at the head of the input: on success returns
the page number of the group and the input remaining after the match. -/
def matchPageMarker (D : DigitClass) : List Char → Option (Nat × List Char)
  | '<' :: '!' :: '-' :: '-' :: r0 => matchPageTail D r0
  | _ => none

/-- The replacement `f"<!--page: {actual_page_num}-->"` built by
`_adjust_page_num` with `actual_page_num = chunk.start_page + relative`. -/
def pageReplacement (startPage n : Nat) : List Char :=
  ("<!--page: " ++ toString (startPage + n) ++ "-->").data

lemma dropPrefixChars_sound :
    ∀ p l r, dropPrefixChars p l = some r → l = p ++ r := by
  intro p
  induction p with
  | nil =>
    intro l r h
    cases h
    rfl
  | cons c p ih =>
    intro l r h
    cases l with
    | nil => cases h
    | cons d l =>
      rw [dropPrefixChars] at h
      by_cases hdc : d = c
      · rw [if_pos hdc] at h
        rw [List.cons_append, hdc, ih l r h]
      · rw [if_neg hdc] at h
        cases h

lemma dropPrefixChars_append (p l : List Char) :
    dropPrefixChars p (p ++ l) = some l := by
  induction p with
  | nil => rfl
  | cons c p ih =>
    rw [List.cons_append, dropPrefixChars, if_pos rfl]
    exact ih

lemma length_dropWhile_le' (p : Char → Bool) (l : List Char) :
    (l.dropWhile p).length ≤ l.length := by
  induction l with
  | nil => exact le_refl _
  | cons c t ih =>
    rw [List.dropWhile_cons]
    by_cases h : p c = true
    · rw [if_pos h]
      refine le_trans ih ?_
      rw [List.length_cons]
      omega
    · rw [if_neg h]

lemma hyphenSkip_length_le (l : List Char) :
    (hyphenSkip l).length ≤ l.length := by
  cases l with
  | nil => exact le_refl _
  | cons c t =>
    by_cases h : c = '-'
    · subst h
      rw [hyphenSkip, List.length_cons]
      omega
    · have : hyphenSkip (c :: t) = c :: t := by
        unfold hyphenSkip
        split
        · rename_i heq
          injection heq with h1 h2
          exact absurd h1 h
        · rfl
      rw [this]

lemma matchPageTail_length {D : DigitClass} {r0 : List Char} {n : Nat}
    {r7 : List Char}
    (h : matchPageTail D r0 = some (n, r7)) : r7.length ≤ r0.length := by
  rw [matchPageTail] at h
  split at h
  · cases h
  · rename_i r3 hdrop
    rw [afterDigits] at h
    split at h
    · cases h
    · split at h
      · cases h
      · rename_i r7' hdrop2
        injection h with h
        injection h with h1 h2
        rw [← h2]
        have e2 := dropPrefixChars_sound _ _ _ hdrop2
        have e1 := dropPrefixChars_sound _ _ _ hdrop
        have harrow : ("-->".data).length = 3 := rfl
        have hpage : ("page:".data).length = 5 := rfl
        have l1 : r7'.length
            ≤ (((r3.dropWhile isSpc).dropWhile D.isDig).dropWhile isSpc).length := by
          rw [e2, List.length_append, harrow]
          omega
        have l2 := length_dropWhile_le' isSpc ((r3.dropWhile isSpc).dropWhile D.isDig)
        have l3 := length_dropWhile_le' D.isDig (r3.dropWhile isSpc)
        have l4 := length_dropWhile_le' isSpc r3
        have l5 : r3.length ≤ ((hyphenSkip r0).dropWhile isSpc).length := by
          rw [e1, List.length_append, hpage]
          omega
        have l6 := length_dropWhile_le' isSpc (hyphenSkip r0)
        have l7 := hyphenSkip_length_le r0
        omega

lemma matchPageMarker_length {D : DigitClass} {l : List Char} {n : Nat}
    {rest : List Char}
    (h : matchPageMarker D l = some (n, rest)) : rest.length < l.length := by
  unfold matchPageMarker at h
  split at h
  · rename_i r0
    have := matchPageTail_length h
    simp only [List.length_cons]
    omega
  · cases h

/-- Embeds the `re.sub` call of `_generate_markdown_for_chunk`: scan left to
right; at a match, emit the rebased marker and continue after the match;
otherwise copy one character. -/
def adjustPageNums (D : DigitClass) (startPage : Nat) : List Char → List Char
  | [] => []
  | c :: l =>
    match h : matchPageMarker D (c :: l) with
    | some (n, rest) =>
        pageReplacement startPage n ++ adjustPageNums D startPage rest
    | none => c :: adjustPageNums D startPage l
termination_by l => l.length
decreasing_by
  · have := matchPageMarker_length h
    simpa using this
  · simp

/-- String-level wrapper: the page-renumbering transformation applied to the
generated markdown. -/
def adjustPageNumbers (D : DigitClass) (startPage : Nat) (text : String) : String :=
  String.mk (adjustPageNums D startPage text.data)

lemma dig_not_spc (D : DigitClass) {c : Char} (h : D.isDig c = true) :
    isSpc c = false := by
  by_contra hs
  have hs' : isSpc c = true := by
    revert hs; cases isSpc c <;> simp
  rw [D.spc_not_dig c hs'] at h
  cases h

lemma hyphenSkip_cons_ne {c : Char} (t : List Char) (h : c ≠ '-') :
    hyphenSkip (c :: t) = c :: t := by
  unfold hyphenSkip
  split
  · rename_i heq
    injection heq with h1 h2
    exact absurd h1 h
  · rfl

lemma hyphenSkip_cases (l : List Char) :
    (∃ t, l = '-' :: t ∧ hyphenSkip l = t) ∨ hyphenSkip l = l := by
  cases l with
  | nil => exact Or.inr rfl
  | cons c t =>
    by_cases h : c = '-'
    · subst h
      exact Or.inl ⟨t, rfl, rfl⟩
    · exact Or.inr (hyphenSkip_cons_ne t h)

lemma dropWhile_append_all (p : Char → Bool) :
    ∀ (a b : List Char), (∀ c ∈ a, p c = true) →
      (a ++ b).dropWhile p = b.dropWhile p := by
  intro a
  induction a with
  | nil => intro b _; rfl
  | cons c a ih =>
    intro b ha
    rw [List.cons_append, List.dropWhile_cons,
      if_pos (ha c (List.mem_cons_self c a))]
    exact ih b fun d hd => ha d (List.mem_cons_of_mem c hd)

lemma dropWhile_eq_self_of_head (p : Char → Bool) (b : List Char)
    (hb : ∀ c t, b = c :: t → p c = false) : b.dropWhile p = b := by
  cases b with
  | nil => rfl
  | cons c t =>
    rw [List.dropWhile_cons, if_neg]
    rw [hb c t rfl]
    simp

lemma takeWhile_append_all (p : Char → Bool) :
    ∀ (a b : List Char), (∀ c ∈ a, p c = true) →
      (a ++ b).takeWhile p = a ++ b.takeWhile p := by
  intro a
  induction a with
  | nil => intro b _; rfl
  | cons c a ih =>
    intro b ha
    rw [List.cons_append, List.takeWhile_cons,
      if_pos (ha c (List.mem_cons_self c a)), List.cons_append,
      ih b fun d hd => ha d (List.mem_cons_of_mem c hd)]

lemma takeWhile_eq_nil_of_head (p : Char → Bool) (b : List Char)
    (hb : ∀ c t, b = c :: t → p c = false) : b.takeWhile p = [] := by
  cases b with
  | nil => rfl
  | cons c t =>
    rw [List.takeWhile_cons, if_neg]
    rw [hb c t rfl]
    simp

/-- A page marker as matched by `<!-{2,3}\s*page:\s*(\d+)\s*-->`: two or
three hyphens, whitespace runs, and a nonempty digit group, relative to the
digit tables `D`. -/
structure PageMarker (D : DigitClass) where
  three : Bool
  w1 : List Char
  w2 : List Char
  w3 : List Char
  ds : List Char
  hw1 : ∀ c ∈ w1, isSpc c = true
  hw2 : ∀ c ∈ w2, isSpc c = true
  hw3 : ∀ c ∈ w3, isSpc c = true
  hds_ne : ds ≠ []
  hds : ∀ c ∈ ds, D.isDig c = true

/-- The exact text matched by the marker. -/
def PageMarker.chars {D : DigitClass} (m : PageMarker D) : List Char :=
  '<' :: '!' :: '-' :: '-' ::
    ((if m.three then ['-'] else []) ++ m.w1 ++ "page:".data
      ++ m.w2 ++ m.ds ++ m.w3 ++ "-->".data)

/-- The chunk-relative page number carried by the marker. -/
def PageMarker.num {D : DigitClass} (m : PageMarker D) : Nat :=
  digitsToNat D m.ds

lemma marker_head_not_digit {D : DigitClass} (m : PageMarker D)
    (rest : List Char) :
    ∀ c t, m.w3 ++ "-->".data ++ rest = c :: t → D.isDig c = false := by
  intro c t h
  rcases hw3 : m.w3 with - | ⟨c0, w3'⟩
  · rw [hw3] at h
    have h' : ('-' :: '-' :: '>' :: rest) = c :: t := h
    injection h' with h1 h2
    rw [← h1]
    exact D.dash_not_dig
  · rw [hw3, List.cons_append, List.cons_append] at h
    injection h with h1 h2
    rw [← h1]
    exact D.spc_not_dig c0 (m.hw3 c0 (hw3 ▸ List.mem_cons_self c0 w3'))

lemma marker_head_not_spc (rest : List Char) :
    ∀ (c : Char) (t : List Char), ("-->".data ++ rest) = c :: t →
      isSpc c = false := by
  intro c t h
  have h' : ('-' :: '-' :: '>' :: rest) = c :: t := h
  injection h' with h1 h2
  rw [← h1]
  decide

lemma hyphenSkip_eq_self_of_head (b : List Char)
    (hb : ∀ c t, b = c :: t → c ≠ '-') : hyphenSkip b = b := by
  cases b with
  | nil => rfl
  | cons c t => exact hyphenSkip_cons_ne t (hb c t rfl)

/-- Round trip of the matcher: the pattern matches exactly the texts
`m.chars`, consuming them entirely and yielding the digit group's value. -/
lemma matchPageMarker_complete {D : DigitClass} (m : PageMarker D)
    (rest : List Char) :
    matchPageMarker D (m.chars ++ rest) = some (m.num, rest) := by
  obtain ⟨three, w1, w2, w3, ds, hw1, hw2, hw3, hds_ne, hds⟩ := m
  obtain ⟨d0, ds', rfl⟩ : ∃ d0 ds', ds = d0 :: ds' := by
    rcases ds with - | ⟨d0, ds'⟩
    · exact absurd rfl hds_ne
    · exact ⟨d0, ds', rfl⟩
  have hnum : PageMarker.num
      ⟨three, w1, w2, w3, d0 :: ds', hw1, hw2, hw3, hds_ne, hds⟩
      = digitsToNat D (d0 :: ds') := rfl
  rw [hnum]
  show matchPageMarker D ('<' :: '!' :: '-' :: '-' ::
      (((if three then ['-'] else []) ++ w1 ++ "page:".data
        ++ w2 ++ (d0 :: ds') ++ w3 ++ "-->".data) ++ rest))
    = some (digitsToNat D (d0 :: ds'), rest)
  rw [matchPageMarker]
  have eassoc : ((if three then ['-'] else []) ++ w1 ++ "page:".data
      ++ w2 ++ (d0 :: ds') ++ w3 ++ "-->".data) ++ rest
      = (if three then ['-'] else [])
        ++ (w1 ++ ("page:".data ++ (w2 ++ ((d0 :: ds')
          ++ (w3 ++ ("-->".data ++ rest)))))) := by
    simp [List.append_assoc]
  rw [eassoc]
  have hyph : hyphenSkip ((if three then ['-'] else [])
        ++ (w1 ++ ("page:".data ++ (w2 ++ ((d0 :: ds')
          ++ (w3 ++ ("-->".data ++ rest)))))))
      = w1 ++ ("page:".data ++ (w2 ++ ((d0 :: ds')
          ++ (w3 ++ ("-->".data ++ rest))))) := by
    cases three with
    | true =>
      show hyphenSkip ('-' :: (w1 ++ ("page:".data ++ (w2 ++ ((d0 :: ds')
          ++ (w3 ++ ("-->".data ++ rest))))))) = _
      rfl
    | false =>
      show hyphenSkip (w1 ++ ("page:".data ++ (w2 ++ ((d0 :: ds')
          ++ (w3 ++ ("-->".data ++ rest)))))) = _
      refine hyphenSkip_eq_self_of_head _ ?_
      intro c t h
      rcases hw1c : w1 with - | ⟨c0, w1'⟩
      · rw [hw1c, List.nil_append] at h
        have h' : 'p' :: ("age:".data ++ (w2 ++ ((d0 :: ds')
            ++ (w3 ++ ("-->".data ++ rest))))) = c :: t := h
        injection h' with h1 h2
        rw [← h1]
        decide
      · rw [hw1c, List.cons_append] at h
        injection h with h1 h2
        rw [← h1]
        intro hcd
        have hspc := hw1 c0 (hw1c ▸ List.mem_cons_self c0 w1')
        rw [hcd] at hspc
        exact absurd hspc (by decide)
  rw [matchPageTail, hyph]
  have hdw1 : (w1 ++ ("page:".data ++ (w2 ++ ((d0 :: ds')
        ++ (w3 ++ ("-->".data ++ rest)))))).dropWhile isSpc
      = "page:".data ++ (w2 ++ ((d0 :: ds')
          ++ (w3 ++ ("-->".data ++ rest)))) := by
    rw [dropWhile_append_all isSpc w1 _ hw1]
    refine dropWhile_eq_self_of_head isSpc _ ?_
    intro c t h
    have h' : 'p' :: ("age:".data ++ (w2 ++ ((d0 :: ds')
        ++ (w3 ++ ("-->".data ++ rest))))) = c :: t := h
    injection h' with h1 h2
    rw [← h1]
    decide
  rw [hdw1, dropPrefixChars_append]
  dsimp only
  have hdw2 : (w2 ++ ((d0 :: ds') ++ (w3 ++ ("-->".data ++ rest)))).dropWhile isSpc
      = (d0 :: ds') ++ (w3 ++ ("-->".data ++ rest)) := by
    rw [dropWhile_append_all isSpc w2 _ hw2]
    refine dropWhile_eq_self_of_head isSpc _ ?_
    intro c t h
    rw [List.cons_append] at h
    injection h with h1 h2
    rw [← h1]
    exact dig_not_spc D (hds d0 (List.mem_cons_self d0 ds'))
  rw [hdw2]
  have hhead_nd : ∀ (c : Char) (t : List Char),
      w3 ++ ("-->".data ++ rest) = c :: t → D.isDig c = false := by
    intro c t h
    rcases hw3c : w3 with - | ⟨c0, w3'⟩
    · rw [hw3c, List.nil_append] at h
      have h' : '-' :: ('-' :: '>' :: rest) = c :: t := h
      injection h' with h1 h2
      rw [← h1]
      exact D.dash_not_dig
    · rw [hw3c, List.cons_append] at h
      injection h with h1 h2
      rw [← h1]
      exact D.spc_not_dig c0 (hw3 c0 (hw3c ▸ List.mem_cons_self c0 w3'))
  have htake : ((d0 :: ds') ++ (w3 ++ ("-->".data ++ rest))).takeWhile D.isDig
      = d0 :: ds' := by
    rw [takeWhile_append_all D.isDig _ _ hds,
      takeWhile_eq_nil_of_head D.isDig _ hhead_nd, List.append_nil]
  rw [htake, afterDigits]
  have hne : (d0 :: ds').isEmpty = false := rfl
  rw [hne]
  simp only [Bool.false_eq_true, if_false]
  have hdrop_digits : ((d0 :: ds') ++ (w3 ++ ("-->".data ++ rest))).dropWhile D.isDig
      = w3 ++ ("-->".data ++ rest) := by
    rw [dropWhile_append_all D.isDig _ _ hds]
    exact dropWhile_eq_self_of_head D.isDig _ hhead_nd
  rw [hdrop_digits]
  have hdw3 : (w3 ++ ("-->".data ++ rest)).dropWhile isSpc
      = "-->".data ++ rest := by
    rw [dropWhile_append_all isSpc w3 _ hw3]
    exact dropWhile_eq_self_of_head isSpc _ (marker_head_not_spc rest)
  rw [hdw3, dropPrefixChars_append]

/-- Soundness of the matcher: a successful match decomposes the input as a
page marker followed by the remainder. -/
lemma matchPageMarker_sound {D : DigitClass} {l : List Char} {n : Nat}
    {rest : List Char}
    (h : matchPageMarker D l = some (n, rest)) :
    ∃ m : PageMarker D, l = m.chars ++ rest ∧ n = m.num := by
  unfold matchPageMarker at h
  split at h
  case h_2 => cases h
  rename_i r0
  rw [matchPageTail] at h
  split at h
  · cases h
  rename_i r3 hdrop
  rw [afterDigits] at h
  split at h
  · cases h
  rename_i hds_nonempty
  split at h
  · cases h
  rename_i r7 hdrop2
  injection h with h
  injection h with h1 h2
  -- named pieces
  set r4 := r3.dropWhile isSpc with hr4
  set ds := r4.takeWhile D.isDig with hds_def
  set r5 := r4.dropWhile D.isDig with hr5
  set w2 := r3.takeWhile isSpc with hw2_def
  set w3 := r5.takeWhile isSpc with hw3_def
  set r6 := r5.dropWhile isSpc with hr6
  have e_r3 : w2 ++ r4 = r3 := by
    rw [hw2_def, hr4]
    exact List.takeWhile_append_dropWhile _ _
  have e_r4 : ds ++ r5 = r4 := by
    rw [hds_def, hr5]
    exact List.takeWhile_append_dropWhile _ _
  have e_r5 : w3 ++ r6 = r5 := by
    rw [hw3_def, hr6]
    exact List.takeWhile_append_dropWhile _ _
  have e_r6 : r6 = "-->".data ++ r7 := dropPrefixChars_sound _ _ _ hdrop2
  have e_hs : (hyphenSkip r0).takeWhile isSpc ++ (hyphenSkip r0).dropWhile isSpc
      = hyphenSkip r0 := List.takeWhile_append_dropWhile _ _
  have e_r2 : (hyphenSkip r0).dropWhile isSpc = "page:".data ++ r3 :=
    dropPrefixChars_sound _ _ _ hdrop
  set w1 := (hyphenSkip r0).takeWhile isSpc with hw1_def
  have hds_ne : ds ≠ [] := by
    intro hnil
    rw [hnil] at hds_nonempty
    exact hds_nonempty rfl
  have hw1p : ∀ c ∈ w1, isSpc c = true :=
    fun c hc => List.mem_takeWhile_imp hc
  have hw2p : ∀ c ∈ w2, isSpc c = true :=
    fun c hc => List.mem_takeWhile_imp hc
  have hw3p : ∀ c ∈ w3, isSpc c = true :=
    fun c hc => List.mem_takeWhile_imp hc
  have hdsp : ∀ c ∈ ds, D.isDig c = true :=
    fun c hc => List.mem_takeWhile_imp hc
  have htail : hyphenSkip r0
      = w1 ++ "page:".data ++ w2 ++ ds ++ w3 ++ "-->".data ++ r7 := by
    rw [← e_hs, e_r2, ← e_r3, ← e_r4, ← e_r5, e_r6]
    simp [List.append_assoc]
  rcases hyphenSkip_cases r0 with ⟨t, hr0, hsk⟩ | hsk
  · refine ⟨⟨true, w1, w2, w3, ds, hw1p, hw2p, hw3p, hds_ne, hdsp⟩, ?_, ?_⟩
    · rw [PageMarker.chars]
      simp only [if_pos rfl]
      rw [hr0]
      rw [hsk] at htail
      rw [htail]
      subst h2
      simp [List.append_assoc]
    · rw [PageMarker.num, ← h1]
  · refine ⟨⟨false, w1, w2, w3, ds, hw1p, hw2p, hw3p, hds_ne, hdsp⟩, ?_, ?_⟩
    · rw [PageMarker.chars]
      simp only [Bool.false_eq_true, if_false, List.nil_append]
      rw [hsk] at htail
      rw [htail]
      subst h2
      simp [List.append_assoc]
    · rw [PageMarker.num, ← h1]

/-- Declarative specification of the `re.sub` pass: characters at positions
where no page marker begins are copied verbatim; each page-marker occurrence
is replaced by the rebased absolute marker, and scanning continues after it
(leftmost, non-overlapping). -/
inductive PageSub (D : DigitClass) (startPage : Nat) :
    List Char → List Char → Prop where
  | nil : PageSub D startPage [] []
  | copy (c : Char) (l out : List Char) :
      (∀ (m : PageMarker D) (rest : List Char), c :: l ≠ m.chars ++ rest) →
      PageSub D startPage l out →
      PageSub D startPage (c :: l) (c :: out)
  | subst (m : PageMarker D) (l out : List Char) :
      PageSub D startPage l out →
      PageSub D startPage (m.chars ++ l)
        (pageReplacement startPage m.num ++ out)

lemma adjustPageNums_nil (D : DigitClass) (sp : Nat) :
    adjustPageNums D sp [] = [] := by
  rw [adjustPageNums]

lemma adjustPageNums_cons_none (D : DigitClass) (sp : Nat) (c : Char)
    (t : List Char) (h : matchPageMarker D (c :: t) = none) :
    adjustPageNums D sp (c :: t) = c :: adjustPageNums D sp t := by
  rw [adjustPageNums]
  split
  · rename_i heq
    rw [h] at heq
    cases heq
  · rfl

lemma adjustPageNums_cons_some (D : DigitClass) (sp : Nat) (c : Char)
    (t : List Char) (n : Nat) (rest : List Char)
    (h : matchPageMarker D (c :: t) = some (n, rest)) :
    adjustPageNums D sp (c :: t)
      = pageReplacement sp n ++ adjustPageNums D sp rest := by
  rw [adjustPageNums]
  split
  · rename_i n' rest' heq
    rw [h] at heq
    injection heq with heq
    injection heq with h1 h2
    rw [← h1, ← h2]
  · rename_i heq
    rw [h] at heq
    cases heq

/-- The embedded `re.sub` satisfies the declarative substitution
specification. -/
lemma pageSub_adjustPageNums (D : DigitClass) (startPage : Nat) :
    ∀ l, PageSub D startPage l (adjustPageNums D startPage l) := by
  have H : ∀ (fuel : Nat) (l : List Char), l.length ≤ fuel →
      PageSub D startPage l (adjustPageNums D startPage l) := by
    intro fuel
    induction fuel with
    | zero =>
      intro l hl
      have hnil : l = [] := by
        cases l with
        | nil => rfl
        | cons c t => simp at hl
      subst hnil
      rw [adjustPageNums_nil]
      exact PageSub.nil
    | succ n ih =>
      intro l hl
      cases l with
      | nil =>
        rw [adjustPageNums_nil]
        exact PageSub.nil
      | cons c t =>
        rcases hmatch : matchPageMarker D (c :: t) with - | ⟨nn, rest⟩
        · rw [adjustPageNums_cons_none D startPage c t hmatch]
          refine PageSub.copy c t _ ?_ (ih t ?_)
          · intro m rest hmr
            rw [hmr, matchPageMarker_complete] at hmatch
            cases hmatch
          · rw [List.length_cons] at hl
            omega
        · obtain ⟨m, hdecomp, hn⟩ := matchPageMarker_sound hmatch
          have hlen := matchPageMarker_length hmatch
          rw [adjustPageNums_cons_some D startPage c t nn rest hmatch,
            hdecomp, hn]
          refine PageSub.subst m rest _ (ih rest ?_)
          rw [List.length_cons] at hlen hl
          omega
  intro l
  exact H l.length l le_rfl

/-- The ASCII digits alone: the core every Unicode version contains.
Exhibits a concrete `DigitClass`, so the parameterized theorems are not
vacuous. -/
def asciiDigits : DigitClass where
  isDig c := 48 ≤ c.toNat && c.toNat ≤ 57
  val c := c.toNat - 48
  spc_not_dig c h := by
    rw [Bool.eq_false_iff]
    intro hd
    simp only [isSpc, Bool.or_eq_true, Bool.and_eq_true, decide_eq_true_eq,
      beq_iff_eq] at h
    simp only [Bool.and_eq_true, decide_eq_true_eq] at hd
    omega
  dash_not_dig := by decide
  ascii_dig c h1 h2 := by
    simp only [Bool.and_eq_true, decide_eq_true_eq]
    exact ⟨h1, h2⟩
  ascii_val _ _ _ := rfl

/-- The ASCII digits together with the Arabic-Indic digits
`U+0660`-`U+0669` (category Nd in every Unicode version; `int` parses
`U+0665` as `5`).  A second `DigitClass`, used below to run the scan on a
marker that an ASCII-only reading of `\s` and `\d` would copy verbatim. -/
def arabicIndicDigits : DigitClass where
  isDig c :=
    (48 ≤ c.toNat && c.toNat ≤ 57) || (0x660 ≤ c.toNat && c.toNat ≤ 0x669)
  val c :=
    if 48 ≤ c.toNat && c.toNat ≤ 57 then c.toNat - 48 else c.toNat - 0x660
  spc_not_dig c h := by
    rw [Bool.eq_false_iff]
    intro hd
    simp only [isSpc, Bool.or_eq_true, Bool.and_eq_true, decide_eq_true_eq,
      beq_iff_eq] at h
    simp only [Bool.or_eq_true, Bool.and_eq_true, decide_eq_true_eq] at hd
    omega
  dash_not_dig := by decide
  ascii_dig c h1 h2 := by
    simp only [Bool.or_eq_true, Bool.and_eq_true, decide_eq_true_eq]
    exact Or.inl ⟨h1, h2⟩
  ascii_val c h1 h2 := by
    have hc : (48 ≤ c.toNat && c.toNat ≤ 57) = true := by
      simp only [Bool.and_eq_true, decide_eq_true_eq]
      exact ⟨h1, h2⟩
    simp only [hc, if_true]

/-- Evaluation beyond ASCII: with the Arabic-Indic digits in the tables, a
marker written with a no-break space (`U+00A0`, matched by `\s`) and the
digit five `U+0665` is found and rebased by the scan, exactly as the Python
`re.sub` rewrites it; the surrounding characters are copied. -/
lemma adjustPageNums_unicode_example :
    adjustPageNums arabicIndicDigits 10 "a <!--page: ٥ -->b".data
      = "a <!--page: 15-->b".data := by
  have h1 : adjustPageNums arabicIndicDigits 10
        "a <!--page: ٥ -->b".data
      = 'a' :: adjustPageNums arabicIndicDigits 10
          " <!--page: ٥ -->b".data :=
    adjustPageNums_cons_none arabicIndicDigits 10 'a'
      " <!--page: ٥ -->b".data (by decide)
  have h2 : adjustPageNums arabicIndicDigits 10
        " <!--page: ٥ -->b".data
      = ' ' :: adjustPageNums arabicIndicDigits 10
          "<!--page: ٥ -->b".data :=
    adjustPageNums_cons_none arabicIndicDigits 10 ' '
      "<!--page: ٥ -->b".data (by decide)
  have h3 : adjustPageNums arabicIndicDigits 10
        "<!--page: ٥ -->b".data
      = pageReplacement 10 5 ++ adjustPageNums arabicIndicDigits 10 "b".data :=
    adjustPageNums_cons_some arabicIndicDigits 10 '<'
      "!--page: ٥ -->b".data 5 "b".data (by decide)
  have h4 : adjustPageNums arabicIndicDigits 10 "b".data
      = 'b' :: adjustPageNums arabicIndicDigits 10 [] :=
    adjustPageNums_cons_none arabicIndicDigits 10 'b' [] (by decide)
  rw [h1, h2, h3, h4, adjustPageNums_nil]
  decide

/-! ### Alignment Engine (spec-modelled)

The module `bbox_alignment` (`create_annotated_markdown`, called by
`process_document` at gemini_ocr.py lines 189-194) is not among the source
files; only its call site is.  The definitions below are modelled from the
specification, §4.1 (Span Locator) and §4.2 (Alignment Engine). -/

/-- Modelled from the spec: the candidate positions of the Span Locator's
primary case (§4.1), exact substring occurrences of the fragment text in
the markdown; each such candidate scores 1. -/
def exactOccurrences (md frag : List Char) : List Nat :=
  (List.range (md.length + 1)).filter
    (fun p => (md.drop p).take frag.length == frag)

/-- Modelled from the spec: the Span Locator contract (§4.1) on exact
candidates.  The best candidate is the first occurrence (all exact
candidates score 1); `runner_up` is 1 when a second candidate exists and 0
otherwise. -/
def locate (md frag : List Char) : Option ((Nat × Nat) × ℚ × ℚ) :=
  match exactOccurrences md frag with
  | [] => none
  | [p] => some ((p, p + frag.length), 1, 0)
  | p :: _ :: _ => some ((p, p + frag.length), 1, 1)

/-- Modelled from the spec: the per-fragment accept/reject policy (§4.2).
An exact match covers the whole fragment, so its overlap fraction is 1;
the fragment is rejected on no match, on
`score * min_overlap > overlap fraction`, or on
`runner_up_score >= score * (1 - uniqueness_threshold)`. -/
def acceptFragment (uniq minov : ℚ) (md frag : List Char) :
    Option (Nat × Nat) :=
  match locate md frag with
  | none => none
  | some (span, score, runner) =>
      if score * minov > 1 then none
      else if runner ≥ score * (1 - uniq) then none
      else some span

/-- Modelled from the spec: the Alignment Engine (§4.2): each fragment is
located independently and accepted fragments are recorded in order. -/
def alignFragments (md : List Char) (frags : List BoundingBox)
    (uniq minov : ℚ) : List (BoundingBox × (Nat × Nat)) :=
  frags.filterMap fun f =>
    (acceptFragment uniq minov md f.text.data).map fun sp => (f, sp)

instance (r : OcrResult) : Decidable (ValidSpans r) := by
  unfold ValidSpans
  infer_instance

/-- Required-field check equivalent to `_validate` succeeding. -/
def requiredFieldsOk (s : Settings) : Bool :=
  !falsyOpt s.project && !(s.location == "") && !falsyOpt s.gcp_project_id
    && !falsyOpt s.layout_processor_id && !falsyOpt s.ocr_processor_id

lemma validateSettings_ok_iff (s : Settings) :
    (∃ u, validateSettings s = Except.ok u) ↔ requiredFieldsOk s = true := by
  unfold validateSettings requiredFieldsOk
  split_ifs with h1 h2 h3 h4 h5 <;>
    simp_all

/-! ### Concrete instances used by witnesses and counterexamples -/

/-- A sample bounding box. -/
def bboxA : BoundingBox := ⟨"A", 0, ⟨10, 20, 30, 40⟩⟩

/-- A second, distinct sample bounding box. -/
def bboxB : BoundingBox := ⟨"B", 0, ⟨50, 60, 70, 80⟩⟩

/-- Markdown `"AB"` with the nested spans `(0, 2)` and `(0, 1)`. -/
def rNested : OcrResult := ⟨"AB", [(bboxA, (0, 1)), (bboxB, (0, 2))], 0⟩

/-- Markdown `"AB"` with the adjacent disjoint spans `(0, 1)` and `(1, 2)`. -/
def rAdjacent : OcrResult := ⟨"AB", [(bboxA, (0, 1)), (bboxB, (1, 2))], 0⟩

/-- Markdown `"AB"` with the out-of-range span `(-1, 1)`. -/
def rNegativeSpan : OcrResult := ⟨"AB", [(bboxA, (-1, 1))], 0⟩

/-- A fragment whose text occurs twice in `"abab"`. -/
def fragAB : BoundingBox := ⟨"ab", 0, ⟨1, 2, 3, 4⟩⟩

/-- A `Settings` value with every required field supplied and an
out-of-range alignment threshold. -/
def cfgOutOfRange : Settings :=
  { project := some "p", gcp_project_id := some "g",
    layout_processor_id := some "l", ocr_processor_id := some "o",
    alignment_uniqueness_threshold := 2 }

/-- An empty environment. -/
def emptyEnv : Env := fun _ => none

/-! ### Claim theorems -/

/-- C1.  Round-trip: for every markdown string and every alignment map
whose spans `(start, end)` satisfy `0 ≤ start ≤ end ≤ len(markdown)`,
removing from the output of `OcrResult.annotate()` every inserted marker
element (each opening `<span class="ocr_bbox" …>` tag and each inserted
`</span>` tag) yields exactly the original `markdown_content` string. -/
theorem claim_roundtrip_annotate (r : OcrResult) (hv : ValidSpans r) :
    annotate r = String.join ((annotatedElems r).map renderElem) ∧
    eraseMarkers (annotatedElems r) = r.markdown_content :=
  ⟨rfl, eraseMarkers_annotatedElems r⟩

theorem claim_roundtrip_annotate_witness :
    ValidSpans rNested ∧
    (annotate rNested = String.join ((annotatedElems rNested).map renderElem) ∧
     eraseMarkers (annotatedElems rNested) = rNested.markdown_content) :=
  ⟨by decide, claim_roundtrip_annotate rNested (by decide)⟩

/-- C2 counterexample.  The claim fails as stated: for markdown `"AB"` with
the valid, pairwise non-crossing (disjoint) spans `(0, 1)` and `(1, 2)`,
`annotate` inserts, at position 1, the opening marker of `(1, 2)` *before*
the closing marker of `(0, 1)` — opening before closing at an equal
position, and the two marker pairs cross (the bracket scan that pairs each
closing marker with the most recently opened span fails). -/
theorem claim_nesting_counterexample :
    ValidSpans rAdjacent ∧
    (rAdjacent.bounding_boxes.map Prod.snd).Pairwise NonCrossing ∧
    annotatedElems rAdjacent
      = [Elem.tag false bboxA (0, 1), Elem.ch 'A', Elem.tag false bboxB (1, 2),
         Elem.tag true bboxA (0, 1), Elem.ch 'B', Elem.tag true bboxB (1, 2)] ∧
    ¬ WellNested (annotatedElems rAdjacent) := by
  refine ⟨by decide, by decide, by decide, by decide⟩

/-- C2 amended.  For every alignment map whose spans are valid against the
markdown, pairwise non-crossing, and additionally endpoint-separated (no
two distinct entries share an end position, and no entry's end coincides
with another entry's start), the string produced by `annotate()` is
well-formed nested markup: the bracket scan pairs every opening marker with
the closing marker inserted for the same span, with no crossing.  (At equal
text positions the code emits opening markers before closing markers, and
longer spans' opening markers before shorter ones'.) -/
theorem claim_nesting_amended (r : OcrResult)
    (hv : ValidSpans r)
    (hcross : (r.bounding_boxes.map Prod.snd).Pairwise NonCrossing)
    (hsep : (r.bounding_boxes.map Prod.snd).Pairwise SepEnds) :
    WellNested (annotatedElems r) :=
  wellNested_annotatedElems r hv hcross hsep

theorem claim_nesting_amended_witness :
    ValidSpans rNested ∧
    (rNested.bounding_boxes.map Prod.snd).Pairwise NonCrossing ∧
    (rNested.bounding_boxes.map Prod.snd).Pairwise SepEnds ∧
    WellNested (annotatedElems rNested) :=
  ⟨by decide, by decide, by decide,
    claim_nesting_amended rNested (by decide) (by decide) (by decide)⟩

/-- C3 counterexample.  The claim's "coverage is 0.0 iff the alignment map
is empty or the markdown is empty" fails: for markdown `"A"` and the
nonempty alignment map carrying the single valid zero-length span `(0, 0)`,
the computed coverage is `0.0` although neither the map nor the markdown is
empty. -/
theorem claim_coverage_counterexample :
    (∀ p ∈ [((0 : ℤ), (0 : ℤ))],
      0 ≤ p.1 ∧ p.1 ≤ p.2 ∧ p.2 ≤ (("A" : String).length : Int)) ∧
    ([((0 : ℤ), (0 : ℤ))] ≠ ([] : List (ℤ × ℤ))) ∧
    ("A" : String).length ≠ 0 ∧
    coveragePercent "A" [((0 : ℤ), (0 : ℤ))] = 0 := by
  refine ⟨by decide, by decide, by decide, ?_⟩
  have h1 : coveredLen (mergeSpans (sortSpans [((0 : ℤ), (0 : ℤ))])) = 0 := by
    decide
  have h2 : ("A" : String).length = 1 := rfl
  rw [coveragePercent, if_neg (by decide), h1, h2]
  norm_num

/-- C3 amended.  For every markdown string and every list of spans valid
against it: `0 ≤ coverage ≤ 1`; coverage is `0` iff the markdown is empty
or every span is empty (`start = end`, which includes the empty map); and
coverage is `1` iff the markdown is nonempty and the merged spans cover
`[0, len)` exactly.  In particular empty markdown gives `0.0`, not an
error. -/
theorem claim_coverage_amended (md : String) (spans : List (Int × Int))
    (hv : ∀ p ∈ spans, 0 ≤ p.1 ∧ p.1 ≤ p.2 ∧ p.2 ≤ (md.length : Int)) :
    (0 ≤ coveragePercent md spans ∧ coveragePercent md spans ≤ 1) ∧
    (coveragePercent md spans = 0 ↔
      md.length = 0 ∨ ∀ p ∈ spans, p.1 = p.2) ∧
    (coveragePercent md spans = 1 ↔ md.length ≠ 0 ∧
      coveredSet (mergeSpans (sortSpans spans))
        = Finset.Ico 0 (md.length : Int)) :=
  coverage_props md spans hv

theorem claim_coverage_amended_witness :
    (∀ p ∈ [((0 : ℤ), (2 : ℤ))],
      0 ≤ p.1 ∧ p.1 ≤ p.2 ∧ p.2 ≤ (("abc" : String).length : Int)) ∧
    ((0 ≤ coveragePercent "abc" [((0 : ℤ), (2 : ℤ))] ∧
      coveragePercent "abc" [((0 : ℤ), (2 : ℤ))] ≤ 1) ∧
     (coveragePercent "abc" [((0 : ℤ), (2 : ℤ))] = 0 ↔
       ("abc" : String).length = 0 ∨ ∀ p ∈ [((0 : ℤ), (2 : ℤ))], p.1 = p.2) ∧
     (coveragePercent "abc" [((0 : ℤ), (2 : ℤ))] = 1 ↔
       ("abc" : String).length ≠ 0 ∧
       coveredSet (mergeSpans (sortSpans [((0 : ℤ), (2 : ℤ))]))
         = Finset.Ico 0 (("abc" : String).length : Int))) :=
  ⟨by decide, claim_coverage_amended "abc" [((0 : ℤ), (2 : ℤ))] (by decide)⟩

/-- C4 counterexample.  The claim fails for touching intervals: the list
`[(0, 1), (1, 2)]` is sorted by start and pairwise disjoint (the half-open
intervals share no position), yet the sweep merges the two touching
intervals into `[(0, 2)]` instead of returning the list unchanged. -/
theorem claim_idempotent_merge_counterexample :
    List.Pairwise (fun a b : Int × Int => a.1 ≤ b.1) [((0 : ℤ), 1), (1, 2)] ∧
    Disjoint (Finset.Ico (0 : ℤ) 1) (Finset.Ico (1 : ℤ) 2) ∧
    mergeSpans [((0 : ℤ), 1), (1, 2)] = [(0, 2)] ∧
    mergeSpans [((0 : ℤ), 1), (1, 2)] ≠ [((0 : ℤ), 1), (1, 2)] := by
  refine ⟨by decide, by decide, by decide, by decide⟩

/-- C4 amended.  The interval-merging sweep used in the coverage
computation returns its input unchanged for every list of intervals that
is separated: each interval's start is strictly greater than the previous
interval's end (sorted, pairwise disjoint, and not even touching). -/
theorem claim_idempotent_merge_amended (l : List (Int × Int))
    (hch : List.Chain' (fun a b : Int × Int => a.2 < b.1) l) :
    mergeSpans l = l :=
  mergeSpans_separated l hch

theorem claim_idempotent_merge_amended_witness :
    List.Chain' (fun a b : Int × Int => a.2 < b.1) [((0 : ℤ), 1), (2, 3)] ∧
    mergeSpans [((0 : ℤ), 1), (2, 3)] = [((0 : ℤ), 1), (2, 3)] := by
  have hch : List.Chain' (fun a b : Int × Int => a.2 < b.1)
      [((0 : ℤ), 1), (2, 3)] :=
    List.chain'_cons.mpr ⟨by decide, List.chain'_singleton _⟩
  exact ⟨hch, claim_idempotent_merge_amended [((0 : ℤ), 1), (2, 3)] hch⟩

/-- C5 counterexample.  The claim fails: `Settings` construction does not
reject alignment parameters outside `[0, 1]`.  With every required field
supplied and `alignment_uniqueness_threshold = 2`, construction succeeds
(no `ValueError`). -/
theorem claim_settings_validation_counterexample :
    (1 : ℚ) < cfgOutOfRange.alignment_uniqueness_threshold ∧
    ∃ s, mkSettings emptyEnv cfgOutOfRange = Except.ok s := by
  refine ⟨by decide, ⟨loadFromEnv emptyEnv cfgOutOfRange, rfl⟩⟩

/-- C5 amended.  `Settings` construction does not constrain the two
alignment parameters at all: `_validate` is independent of their values,
and construction succeeds exactly when the five required identity fields
(`project`, `location`, `gcp_project_id`, `layout_processor_id`,
`ocr_processor_id`) are non-falsy after environment loading; the parameter
defaults are 0.5 and 0.9. -/
theorem claim_settings_validation_amended :
    (({} : Settings).alignment_uniqueness_threshold = 0.5 ∧
     ({} : Settings).alignment_min_overlap = 0.9) ∧
    (∀ (s : Settings) (t₁ t₂ : ℚ),
      validateSettings { s with alignment_uniqueness_threshold := t₁,
                                alignment_min_overlap := t₂ }
        = validateSettings s) ∧
    (∀ (env : Env) (s : Settings),
      (∃ s', mkSettings env s = Except.ok s') ↔
        requiredFieldsOk (loadFromEnv env s) = true) := by
  refine ⟨⟨rfl, rfl⟩, ?_, ?_⟩
  · intro s t₁ t₂
    rfl
  · intro env s
    unfold mkSettings
    cases hval : validateSettings (loadFromEnv env s) with
    | error e =>
      simp only [hval]
      constructor
      · rintro ⟨s', hs'⟩
        cases hs'
      · intro hok
        obtain ⟨u, hu⟩ := (validateSettings_ok_iff _).mpr hok
        rw [hval] at hu
        cases hu
    | ok u =>
      simp only [hval]
      constructor
      · intro _
        exact (validateSettings_ok_iff _).mp ⟨u, hval⟩
      · intro _
        exact ⟨loadFromEnv env s, rfl⟩

/-- C6.  Page-marker rebasing: the `re.sub` of
`_generate_markdown_for_chunk` satisfies the declarative substitution
relation: every occurrence of the page-marker pattern with chunk-relative
number `n` is rewritten to the marker carrying the absolute page number
`chunk.start_page + n` (`pageReplacement`), and every character outside
such occurrences is copied unchanged.  The pattern's `\s` is CPython's full
Unicode whitespace set (`isSpc`) and its `\d` the decimal digits of the
interpreter's Unicode tables, over which the statement quantifies
(`DigitClass`), so markers written with any Unicode whitespace or digits
are covered. -/
theorem claim_page_marker_rebasing (D : DigitClass) (startPage : Nat)
    (text : String) :
    adjustPageNumbers D startPage text
      = String.mk (adjustPageNums D startPage text.data) ∧
    PageSub D startPage text.data (adjustPageNums D startPage text.data) :=
  ⟨rfl, pageSub_adjustPageNums D startPage text.data⟩

/-- C7.  Outer-then-inner scenario: for markdown `"AB"` with the accepted
spans `(0, 1)` and `(0, 2)`, `annotate()` emits the length-2 span's opening
marker before the length-1 span's opening marker, and the length-1 span's
closing marker before the length-2 span's closing marker. -/
theorem claim_outer_then_inner :
    annotatedElems rNested
      = [Elem.tag false bboxB (0, 2), Elem.tag false bboxA (0, 1),
         Elem.ch 'A', Elem.tag true bboxA (0, 1), Elem.ch 'B',
         Elem.tag true bboxB (0, 2)] ∧
    annotate rNested
      = startTag bboxB ++ startTag bboxA ++ "A" ++ endTag ++ "B" ++ endTag := by
  refine ⟨by decide, by decide⟩

/-- C8 (spec-modelled: the `bbox_alignment` module is absent from the
sources).  Ambiguity rejection: a fragment whose text occurs at least twice
as an identical exact match in the markdown is rejected by the alignment
with `uniqueness_threshold = 1.0` — it has no entry in the alignment map,
because `runner_up_score ≥ score * (1 - uniqueness_threshold)` holds. -/
theorem claim_ambiguity_rejection (md : String) (frags : List BoundingBox)
    (minov : ℚ) (f : BoundingBox)
    (hocc : 2 ≤ (exactOccurrences md.data f.text.data).length) :
    ∀ sp, (f, sp) ∉ alignFragments md.data frags 1 minov := by
  intro sp hmem
  rw [alignFragments, List.mem_filterMap] at hmem
  obtain ⟨g, hg, hacc⟩ := hmem
  rw [Option.map_eq_some'] at hacc
  obtain ⟨sp', hsp', heq⟩ := hacc
  have hgf : g = f := congrArg Prod.fst heq
  subst hgf
  rw [acceptFragment] at hsp'
  have hocc2 : ∃ p q t, exactOccurrences md.data g.text.data = p :: q :: t := by
    rcases hl : exactOccurrences md.data g.text.data with - | ⟨p, - | ⟨q, t⟩⟩
    · rw [hl] at hocc
      simp at hocc
    · rw [hl] at hocc
      simp at hocc
    · exact ⟨p, q, t, rfl⟩
  obtain ⟨p, q, t, hl⟩ := hocc2
  rw [locate, hl] at hsp'
  dsimp only at hsp'
  by_cases hov : (1 : ℚ) * minov > 1
  · rw [if_pos hov] at hsp'
    cases hsp'
  · rw [if_neg hov, if_pos (by norm_num)] at hsp'
    cases hsp'

theorem claim_ambiguity_rejection_witness :
    2 ≤ (exactOccurrences ("abab" : String).data fragAB.text.data).length ∧
    (fragAB, ((0 : ℕ), (2 : ℕ)))
      ∉ alignFragments ("abab" : String).data [fragAB] 1 (9 / 10) :=
  ⟨by decide,
    claim_ambiguity_rejection "abab" [fragAB] (9 / 10) fragAB (by decide)
      (0, 2)⟩

/-- C9 counterexample.  The claim's "markers for out-of-range spans are
placed at the string boundaries" fails: for markdown `"AB"` and the span
`(-1, 1)` (negative start), Python's `list.insert` interprets `-1` relative
to the end of the list, so the opening marker lands strictly inside the
string — between the closing marker and `'B'` — not at a boundary (the
first and last elements are the characters `'A'` and `'B'`). -/
theorem claim_annotate_total_counterexample :
    ((-1 : ℤ) < 0) ∧
    rNegativeSpan.bounding_boxes = [(bboxA, (-1, 1))] ∧
    annotatedElems rNegativeSpan
      = [Elem.ch 'A', Elem.tag true bboxA (-1, 1),
         Elem.tag false bboxA (-1, 1), Elem.ch 'B'] := by
  refine ⟨by decide, by decide, by decide⟩

/-- C9 amended.  `annotate()` is total for arbitrary integer span
endpoints: `list.insert` never raises (an index beyond the length is
clamped to the end, a negative index is interpreted from the end and
clamped at the start), every marker is inserted (the working list grows by
exactly two elements per map entry), and erasing all inserted markers still
recovers the original markdown. -/
theorem claim_annotate_total_amended (r : OcrResult) :
    eraseMarkers (annotatedElems r) = r.markdown_content ∧
    (annotatedElems r).length
      = r.markdown_content.length + 2 * r.bounding_boxes.length :=
  ⟨eraseMarkers_annotatedElems r, length_annotatedElems r⟩

/-- C10.  The settings parameter is effectively mandatory: the `Settings`
class defines no attribute named `from_env`, so the
`if settings is None: settings = Settings.from_env()` prologue shared by
`extract_raw_data` and `process_document` raises `AttributeError` before
any document processing begins; only calls passing an explicit `Settings`
proceed. -/
theorem claim_settings_mandatory :
    ("from_env" ∉ settingsClassAttrs) ∧
    settingsAttrLookup "from_env" = none ∧
    (∀ s : Settings, resolveSettingsArg (some s) = Except.ok s) ∧
    resolveSettingsArg none
      = Except.error (PyError.attributeError
          "type object Settings has no attribute from_env") := by
  refine ⟨by decide, by decide, fun s => rfl, rfl⟩

end GeminiOcr
